import Mathlib

set_option maxRecDepth 40000

/-!
# Verification of the SNOMED extraction-fusion-and-validation pipeline

A shallow embedding of the core pipeline of `snomed_extractor.py` /
`snomed_validator.py`:

* the lexical scoring function `calculate_math_score` (built on Python's
  `difflib.SequenceMatcher` ratio, word overlap and containment),
* the two-tier semantic-coherence filter `_validate_semantic_coherence_batch`
  with its batched LLM arbitration `llm_validate_batch`,
* the resilient JSON extraction steps (`parse_gemini_response` and the
  brace-span extraction inside `llm_validate_batch`),
* the category assignment `_categorize_by_snomed_code`,
* the full fusion pipeline `extract_triple_with_validation_fusion_v2`
  (per-run validation cascade, code-level dedup, semantic filter,
  final term-level dedup, categorization).

Modelling conventions:
* Python `str` is Lean `String`; all character-level operations are
  re-implemented structurally on `List Char` (Python `lower()` is modelled by
  ASCII `Char.toLower`, `strip()`/`split()` treat the ASCII whitespace
  characters recognised by `Char.isWhitespace`).
* Python floats are modelled by exact rationals (`ℚ`); float literals such as
  `0.3` become `3/10`.
* The generative oracle is an external collaborator: an oracle interaction is
  modelled by the reply text it produces (`Option String`, `none` standing for
  any raised exception / unavailable reply).
* Wall-clock `duration` bookkeeping fields and the numeric score interpolated
  into some log/reason strings are not modelled (no claim concerns them).
-/

namespace Snomed

/-! ## Character-list utilities (Python string primitives) -/

/-- Python `str.lower()` on the character list (ASCII case folding). -/
def lowerChars (cs : List Char) : List Char := cs.map Char.toLower

/-- Python `str.strip()`: drop whitespace from both ends. -/
def stripChars (cs : List Char) : List Char :=
  ((cs.dropWhile Char.isWhitespace).reverse.dropWhile Char.isWhitespace).reverse

/-- Python `str.split()` (no argument): whitespace-run tokenisation, empty
tokens never produced.  `acc` is the current token accumulated in reverse. -/
def splitWsAux : List Char → List Char → List (List Char)
  | [], acc => if acc.isEmpty then [] else [acc.reverse]
  | c :: rest, acc =>
    if c.isWhitespace then
      if acc.isEmpty then splitWsAux rest [] else acc.reverse :: splitWsAux rest []
    else splitWsAux rest (c :: acc)

/-- Python `str.split()` with no argument. -/
def splitWs (cs : List Char) : List (List Char) := splitWsAux cs []

/-- Membership of a token in a token list (Python `in` on a set of words). -/
def memTok (t : List Char) (ts : List (List Char)) : Bool := ts.any (fun u => u == t)

/-- Distinct tokens in order of first appearance (Python `set(...)`, used only
through its cardinality and intersections, which are order-insensitive). -/
def distinctToks : List (List Char) → List (List Char)
  | [] => []
  | t :: rest =>
    let r := distinctToks rest
    if memTok t r then r else t :: r

/-- `startsWithList ns hs`: the list `hs` starts with `ns`. -/
def startsWithList : List Char → List Char → Bool
  | [], _ => true
  | _ :: _, [] => false
  | n :: ns, h :: hs => n == h && startsWithList ns hs

/-- Python `needle in hay` on strings: substring test. -/
def isSubstringOf : List Char → List Char → Bool
  | ns, [] => ns.isEmpty
  | ns, h :: hs => startsWithList ns (h :: hs) || isSubstringOf ns hs

/-- Python `s.lower()` as a `String`-level operation. -/
def pyLower (s : String) : String := ⟨lowerChars s.data⟩

/-- Python `s.lower().strip()`, the normalisation used by the terminology
store's label index. -/
def pyNorm (s : String) : String := ⟨stripChars (lowerChars s.data)⟩

/-! ## `difflib.SequenceMatcher` (no junk; `ratio()`)

`find_longest_match` is modelled by its documented contract for
`isjunk=None`: among all maximal matching blocks return the one starting
earliest in `a`, then earliest in `b`.  (The `autojunk` popularity heuristic,
which can only trigger when the second sequence has ≥ 200 elements, is not
modelled.)  `get_matching_blocks` recursively splits around the longest match;
`ratio()` is `2·M/T` with `M` the total matched size and `T` the total length,
and `1.0` when both sequences are empty. -/

/-- Length of the longest common prefix of two character lists. -/
def prefixMatchLen : List Char → List Char → Nat
  | a :: as, b :: bs => if a == b then prefixMatchLen as bs + 1 else 0
  | _, _ => 0

/-- Size of the matching block of `a[i:]`/`b[j:]` clipped to the sub-ranges
`[·, ahi)` and `[·, bhi)`. -/
def blockLenAt (a b : List Char) (ahi bhi i j : Nat) : Nat :=
  min (prefixMatchLen (a.drop i) (b.drop j)) (min (ahi - i) (bhi - j))

/-- All candidate block positions `(i, j)` of the sub-ranges, `i`-major
ascending, matching the tie-break order of `find_longest_match`. -/
def candPairs (alo ahi blo bhi : Nat) : List (Nat × Nat) :=
  (List.range (ahi - alo)).flatMap
    (fun di => (List.range (bhi - blo)).map (fun dj => (alo + di, blo + dj)))

/-- `find_longest_match` on the sub-ranges: result `(i, j, k)`; only strictly
longer blocks replace the current best, so the earliest `(i, j)` wins ties. -/
def bestMatch (a b : List Char) (alo ahi blo bhi : Nat) : Nat × Nat × Nat :=
  (candPairs alo ahi blo bhi).foldl
    (fun best ij =>
      let k := blockLenAt a b ahi bhi ij.1 ij.2
      if best.2.2 < k then (ij.1, ij.2, k) else best)
    (alo, blo, 0)

/-- Total matched size of `get_matching_blocks` on the sub-ranges (fuelled
recursion; the fuel passed at top level always suffices). -/
def matchTotal (a b : List Char) : Nat → Nat → Nat → Nat → Nat → Nat
  | 0, _, _, _, _ => 0
  | fuel + 1, alo, ahi, blo, bhi =>
    let m := bestMatch a b alo ahi blo bhi
    if m.2.2 = 0 then 0
    else
      matchTotal a b fuel alo m.1 blo m.2.1 + m.2.2 +
        matchTotal a b fuel (m.1 + m.2.2) ahi (m.2.1 + m.2.2) bhi

/-- Total matched character count of `SequenceMatcher(None, x, y)`. -/
def seqMatches (x y : String) : Nat :=
  matchTotal x.data y.data (x.data.length + y.data.length + 1)
    0 x.data.length 0 y.data.length

/-- `SequenceMatcher(None, x, y).ratio()` over exact rationals. -/
def ratioQ (x y : String) : ℚ :=
  let t := x.data.length + y.data.length
  if t = 0 then 1 else (2 * seqMatches x y : ℚ) / (t : ℚ)

/-! ## `calculate_math_score` (snomed_extractor.py, lines 929–946) -/

/-- Number of distinct words of `x` (Python `len(set(x.split()))`), `x`
already lowercased by the caller. -/
def wordToks (s : String) : List (List Char) := distinctToks (splitWs s.data)

/-- The fast lexical score
`levenshtein * 0.3 + word_overlap * 0.4 + contains * 0.3` of
`calculate_math_score(gemini_term, official_term)`. -/
def calculate_math_score (gemini_term official_term : String) : ℚ :=
  let levenshtein := ratioQ (pyLower gemini_term) (pyLower official_term)
  let words_a := wordToks (pyLower gemini_term)
  let words_b := wordToks (pyLower official_term)
  let word_overlap : ℚ :=
    if words_a.isEmpty && words_b.isEmpty then 0
    else ((words_a.filter (fun t => memTok t words_b)).length : ℚ) /
      (max words_a.length words_b.length : ℚ)
  let a_clean := stripChars (lowerChars gemini_term.data)
  let b_clean := stripChars (lowerChars official_term.data)
  let contains : ℚ :=
    if isSubstringOf a_clean b_clean || isSubstringOf b_clean a_clean then 1 else 0
  levenshtein * (3/10) + word_overlap * (4/10) + contains * (3/10)

end Snomed


namespace Snomed

/-! ## JSON values and a structural decoder

Models the fragment of `json.loads` exercised by the pipeline's oracle
protocols: objects, arrays, strings (with the standard escapes and `\uXXXX`),
integers, booleans and `null`.  (JSON fractional/exponent numbers are outside
the arbitration protocol, which only transports integer indices and booleans,
and are not modelled: they make the decoder fail.)  Decoding requires the
whole input to be consumed up to trailing whitespace, as `json.loads` does. -/

inductive Json where
  | null : Json
  | bool (b : Bool) : Json
  | num (n : Int) : Json
  | str (s : String) : Json
  | arr (elems : List Json) : Json
  | obj (fields : List (String × Json)) : Json

/-- Python `dict` lookup for a decoded object: later duplicate keys overwrite
earlier ones, as in `json.loads`. -/
def objGet (fields : List (String × Json)) (k : String) : Option Json :=
  fields.foldl (fun acc p => if p.1 == k then some p.2 else acc) none

/-- Is this value a decoded JSON object (a Python `dict`)? -/
def isObjVal : Json → Bool
  | .obj _ => true
  | _ => false

/-- Hex digit value. -/
def hexVal (c : Char) : Option Nat :=
  let k := ("0123456789abcdef").data.indexOf c.toLower
  if k < 16 then some k else none

/-- String body after an opening quote: collected characters and the rest. -/
def parseStringBody : Nat → List Char → Option (List Char × List Char)
  | 0, _ => none
  | _, [] => none
  | fuel + 1, c :: rest =>
    if c == '"' then some ([], rest)
    else if c == '\\' then
      match rest with
      | [] => none
      | e :: rest2 =>
        let esc : Option (Char × List Char) :=
          if e == '"' then some ('"', rest2)
          else if e == '\\' then some ('\\', rest2)
          else if e == '/' then some ('/', rest2)
          else if e == 'n' then some ('\n', rest2)
          else if e == 't' then some ('\t', rest2)
          else if e == 'r' then some ('\r', rest2)
          else if e == 'b' then some ('\x08', rest2)
          else if e == 'f' then some ('\x0c', rest2)
          else if e == 'u' then
            match rest2 with
            | h1 :: h2 :: h3 :: h4 :: rest3 =>
              match hexVal h1, hexVal h2, hexVal h3, hexVal h4 with
              | some v1, some v2, some v3, some v4 =>
                some (Char.ofNat (((v1 * 16 + v2) * 16 + v3) * 16 + v4), rest3)
              | _, _, _, _ => none
            | _ => none
          else none
        match esc with
        | some (ch, rest2) =>
          match parseStringBody fuel rest2 with
          | some (cs, rest3) => some (ch :: cs, rest3)
          | none => none
        | none => none
    else if c.toNat < 32 then none
    else
      match parseStringBody fuel rest with
      | some (cs, rest2) => some (c :: cs, rest2)
      | none => none

/-- Digit run of a JSON integer. -/
def parseDigits : List Char → (List Char × List Char)
  | [] => ([], [])
  | c :: rest =>
    if c.isDigit then
      let r := parseDigits rest
      (c :: r.1, r.2)
    else ([], c :: rest)

/-- Numeric value of a digit run. -/
def digitsVal : List Char → Nat
  | [] => 0
  | c :: rest => (c.toNat - '0'.toNat) * (10 ^ rest.length) + digitsVal rest

mutual

/-- One JSON value (after leading whitespace) and the remaining input. -/
def parseValue : Nat → List Char → Option (Json × List Char)
  | 0, _ => none
  | fuel + 1, cs =>
    match cs.dropWhile Char.isWhitespace with
    | [] => none
    | c :: rest =>
      if c == '{' then
        match (rest.dropWhile Char.isWhitespace) with
        | '}' :: rest2 => some (.obj [], rest2)
        | _ => match parseMembers fuel rest with
          | some (fields, rest2) => some (.obj fields, rest2)
          | none => none
      else if c == '[' then
        match (rest.dropWhile Char.isWhitespace) with
        | ']' :: rest2 => some (.arr [], rest2)
        | _ => match parseElems fuel rest with
          | some (elems, rest2) => some (.arr elems, rest2)
          | none => none
      else if c == '"' then
        match parseStringBody (fuel + 1) rest with
        | some (cs2, rest2) => some (.str ⟨cs2⟩, rest2)
        | none => none
      else if c == 't' then
        match rest with
        | 'r' :: 'u' :: 'e' :: rest2 => some (.bool true, rest2)
        | _ => none
      else if c == 'f' then
        match rest with
        | 'a' :: 'l' :: 's' :: 'e' :: rest2 => some (.bool false, rest2)
        | _ => none
      else if c == 'n' then
        match rest with
        | 'u' :: 'l' :: 'l' :: rest2 => some (.null, rest2)
        | _ => none
      else if c == '-' then
        match parseDigits rest with
        | ([], _) => none
        | (ds, rest2) =>
          if ds.length > 1 && ds.headD '0' == '0' then none
          else if rest2.headD ' ' == '.' || rest2.headD ' ' == 'e' || rest2.headD ' ' == 'E' then none
          else some (.num (-(digitsVal ds : Int)), rest2)
      else if c.isDigit then
        match parseDigits (c :: rest) with
        | ([], _) => none
        | (ds, rest2) =>
          if ds.length > 1 && ds.headD '0' == '0' then none
          else if rest2.headD ' ' == '.' || rest2.headD ' ' == 'e' || rest2.headD ' ' == 'E' then none
          else some (.num (digitsVal ds : Int), rest2)
      else none

/-- Object members `"k" : v (, "k" : v)* }` (first member not yet read). -/
def parseMembers : Nat → List Char → Option (List (String × Json) × List Char)
  | 0, _ => none
  | fuel + 1, cs =>
    match cs.dropWhile Char.isWhitespace with
    | '"' :: rest =>
      match parseStringBody (fuel + 1) rest with
      | some (kcs, rest2) =>
        match rest2.dropWhile Char.isWhitespace with
        | ':' :: rest3 =>
          match parseValue fuel rest3 with
          | some (v, rest4) =>
            match rest4.dropWhile Char.isWhitespace with
            | ',' :: rest5 =>
              match parseMembers fuel rest5 with
              | some (fields, rest6) => some ((⟨kcs⟩, v) :: fields, rest6)
              | none => none
            | '}' :: rest5 => some ([(⟨kcs⟩, v)], rest5)
            | _ => none
          | none => none
        | _ => none
      | none => none
    | _ => none

/-- Array elements `v (, v)* ]` (first element not yet read). -/
def parseElems : Nat → List Char → Option (List Json × List Char)
  | 0, _ => none
  | fuel + 1, cs =>
    match parseValue fuel cs with
    | some (v, rest) =>
      match rest.dropWhile Char.isWhitespace with
      | ',' :: rest2 =>
        match parseElems fuel rest2 with
        | some (elems, rest3) => some (v :: elems, rest3)
        | none => none
      | ']' :: rest2 => some ([v], rest2)
      | _ => none
    | none => none

end

/-- `json.loads`: decode one value, allowing only trailing whitespace. -/
def jsonDecode (s : String) : Option Json :=
  match parseValue (2 * s.data.length + 2) s.data with
  | some (v, rest) => if (rest.dropWhile Char.isWhitespace).isEmpty then some v else none
  | none => none

/-! ## `parse_gemini_response` (snomed_extractor.py, lines 201–215)

The extraction regex `re.search(r'\x7b.*\x7d', text, re.DOTALL)` is greedy:
it matches from the leftmost `{` that has some `}` after it, through the last
`}` of the whole text. -/

/-- Prefix of `cs` up to and including its *last* `}`, if any. -/
def upToLastClose : List Char → Option (List Char)
  | [] => none
  | c :: rest =>
    match upToLastClose rest with
    | some t => some (c :: t)
    | none => if c == '}' then some [c] else none

/-- The greedy regex search: leftmost match of `\x7b.*\x7d` with `.`
matching newlines. -/
def searchBraces : List Char → Option (List Char)
  | [] => none
  | c :: rest =>
    if c == '{' then
      match upToLastClose rest with
      | some t => some (c :: t)
      | none => searchBraces rest
    else searchBraces rest

/-- The fallback value `{"concepts_medicaux": []}` returned on any parse
failure. -/
def emptyConcepts : Json := .obj [("concepts_medicaux", .arr [])]

/-- `parse_gemini_response`: regex-extract a JSON-looking span, decode it,
fall back to the empty payload when nothing is found or decoding fails. -/
def parse_gemini_response (response_text : String) : Json :=
  match searchBraces response_text.data with
  | some m =>
    match jsonDecode ⟨m⟩ with
    | some v => v
    | none => emptyConcepts
  | none => emptyConcepts

/-- The span from the first `{` to the last `}` of the text, if both exist in
that order: an index-free description of what the greedy regex matches. -/
def spanFirstToLast (cs : List Char) : Option (List Char) :=
  match cs.dropWhile (fun c => !(c == '{')) with
  | [] => none
  | c :: rest =>
    match upToLastClose rest with
    | some t => some (c :: t)
    | none => none

/-- Modelled from the spec: "locates the first balanced JSON object in the
free-text reply" — scan from the first `{` tracking brace depth and stop at
the closing brace that balances it.  (Used only to compare the spec's
description against `parse_gemini_response`.) -/
def balancedScan : Nat → List Char → Nat → List Char → Option (List Char)
  | _, [], _, _ => none
  | 0, _, _, _ => none
  | fuel + 1, c :: rest, depth, acc =>
    if c == '{' then balancedScan fuel rest (depth + 1) (c :: acc)
    else if c == '}' then
      if depth = 1 then some ((c :: acc).reverse)
      else if depth = 0 then none
      else balancedScan fuel rest (depth - 1) (c :: acc)
    else
      if depth = 0 then none
      else balancedScan fuel rest depth (c :: acc)

/-- Modelled from the spec: the first balanced `{...}` span of the text.
`acc` in `balancedScan` holds the consumed span reversed, `depth` the current
brace nesting. -/
def firstBalancedObject (s : String) : Option String :=
  match balancedScan (s.data.length + 1) (s.data.dropWhile (fun c => !(c == '{'))) 0 [] with
  | some m => some ⟨m⟩
  | none => none

/-- Modelled from the spec: decode the first balanced JSON object of the
reply. -/
def specParseReply (s : String) : Option Json :=
  match firstBalancedObject s with
  | some m => jsonDecode m
  | none => none

end Snomed

namespace Snomed

/-! ## `llm_validate_batch` (snomed_extractor.py, lines 948–1039)

The oracle call is modelled by its reply text: `none` models any exception
raised while producing/reading the reply (the outer `except Exception`
branch).  The `duration` bookkeeping field of the Python result dicts is not
modelled, and exception messages interpolated into reasons are elided. -/

/-- One per-pair arbitration verdict. -/
structure LlmResult where
  valid : Bool
  confidence : ℚ
  reason : String

/-- The all-pairs fail-closed table used by every failure branch. -/
def allRejected (n : Nat) (reason : String) : Nat → Option LlmResult :=
  fun i => if i < n then some ⟨false, 0, reason⟩ else none

/-- The substring of the (stripped) reply from the first `\x7b` to the last
`\x7d`: `json_start = find('\x7b')`, `json_end = rfind('\x7d') + 1`,
guarded by `json_start >= 0 and json_end > json_start`. -/
def llmExtractJson (s : String) : Option String :=
  match spanFirstToLast (stripChars s.data) with
  | some m => some ⟨m⟩
  | none => none

/-- A JSON value usable as a Python `int` in `paire_num - 1` (`bool` is an
`int` in Python); any other non-`None` value raises `TypeError`. -/
def pyIntVal : Json → Option Int
  | .num n => some n
  | .bool b => some (if b then 1 else 0)
  | _ => none

/-- Python truthiness of a decoded JSON value (used by `if meme_concept:`). -/
def jsonTruthy : Json → Bool
  | .null => false
  | .bool b => b
  | .num n => !(n == 0)
  | .str s => !s.data.isEmpty
  | .arr l => !l.isEmpty
  | .obj l => !l.isEmpty

/-- `x if x is not None`: a missing key and a JSON `null` both give `None`. -/
def nonNull : Option Json → Option Json
  | some .null => none
  | o => o

/-- Process one entry of the `validations` array.  `none` models an exception
(non-dict entry → `AttributeError`; non-integer `paire` → `TypeError`). -/
def processEntry (n : Nat) (acc : Nat → Option LlmResult) (e : Json) :
    Option (Nat → Option LlmResult) :=
  match e with
  | .obj fields =>
    match nonNull (objGet fields ("paire")), nonNull (objGet fields ("meme_concept")) with
    | some pv, some mv =>
      match pyIntVal pv with
      | some k =>
        if 0 ≤ k - 1 ∧ k - 1 < (n : Int) then
          some (fun j =>
            if (j : Int) = k - 1 then
              some (if jsonTruthy mv then ⟨true, 1, "Concept identique"⟩
                else ⟨false, 0, "Concept différent"⟩)
            else acc j)
        else some acc
      | none => none
    | _, _ => some acc
  | _ => none

/-- Iteration of `processEntry` over the `validations` array (an exception
aborts the whole batch). -/
def processValidations (n : Nat) : List Json → (Nat → Option LlmResult) →
    Option (Nat → Option LlmResult)
  | [], acc => some acc
  | e :: rest, acc =>
    match processEntry n acc e with
    | some acc2 => processValidations n rest acc2
    | none => none

/-- `llm_validate_batch(llm_pairs)` with the oracle reply `resp?`: a table
from pair index to verdict (`{}` when there are no pairs). -/
def llm_validate_batch (llm_pairs : List (String × String)) (resp? : Option String) :
    Nat → Option LlmResult :=
  let n := llm_pairs.length
  if n = 0 then fun _ => none
  else
    match resp? with
    | none => allRejected n ("Erreur LLM")
    | some s =>
      match llmExtractJson s with
      | none => allRejected n ("Échec parsing JSON")
      | some js =>
        match jsonDecode js with
        | none => allRejected n ("Erreur JSON")
        | some v =>
          match v with
          | .obj fields =>
            match objGet fields ("validations") with
            | some (.arr entries) =>
              match processValidations n entries (fun _ => none) with
              | some acc =>
                fun i =>
                  if i < n then
                    some ((acc i).getD ⟨false, 0, "Paire non trouvée dans la réponse"⟩)
                  else none
              | none => allRejected n ("Erreur LLM")
            | some _ => allRejected n ("Erreur LLM")
            | none =>
              fun i =>
                if i < n then some ⟨false, 0, "Paire non trouvée dans la réponse"⟩
                else none
          | _ => allRejected n ("Erreur LLM")

/-! ## `_validate_semantic_coherence_batch` (snomed_extractor.py, 1041–1125) -/

/-- One per-pair decision of the hybrid filter. -/
structure SemResult where
  valid : Bool
  confidence : ℚ
  method : String
  reason : String

/-- Phase 1, one pair: the threshold ladder
`>= 0.5` accept / `<= 0.01` reject / otherwise queue for the LLM. -/
def mathResult (gemini_term official_term : String) : SemResult :=
  let math_score := calculate_math_score gemini_term official_term
  if math_score ≥ 1/2 then ⟨true, math_score, "mathematical", "Score math élevé"⟩
  else if math_score ≤ 1/100 then ⟨false, math_score, "mathematical", "Score math très bas"⟩
  else ⟨false, 0, "hybrid", "Score math ambigu"⟩

/-- Is the pair ambiguous, i.e. queued for arbitration? -/
def isAmbiguous (gemini_term official_term : String) : Prop :=
  ¬(calculate_math_score gemini_term official_term ≥ 1/2) ∧
    ¬(calculate_math_score gemini_term official_term ≤ 1/100)

instance (a b : String) : Decidable (isAmbiguous a b) := by
  unfold isAmbiguous; infer_instance

/-- `llm_cases`: the ambiguous pairs, in submission order. -/
def llmCases (pairs : List (String × String)) : List (String × String) :=
  pairs.filter (fun p => decide (isAmbiguous p.1 p.2))

/-- Pair each element with its index, starting at `k`. -/
def zipIdxFrom {α : Type} : Nat → List α → List (Nat × α)
  | _, [] => []
  | k, x :: xs => (k, x) :: zipIdxFrom (k + 1) xs

/-- `llm_indices`: the original indices of the ambiguous pairs. -/
def llmIndices (pairs : List (String × String)) : List Nat :=
  ((zipIdxFrom 0 pairs).filter (fun p => decide (isAmbiguous p.2.1 p.2.2))).map Prod.fst

/-- Replace the element at index `i` (if any). -/
def listModify {α : Type} (f : α → α) : Nat → List α → List α
  | _, [] => []
  | 0, x :: xs => f x :: xs
  | n + 1, x :: xs => x :: listModify f n xs

/-- Overwrite a phase-1 result with the LLM verdict (`method` is kept). -/
def updWith (lr : LlmResult) (r : SemResult) : SemResult :=
  ⟨lr.valid, lr.confidence, r.method, lr.reason⟩

/-- Phase 2: write each returned LLM verdict back onto its original index. -/
def applyLlm (math : List SemResult) (idxs : List Nat)
    (llmRes : Nat → Option LlmResult) : List SemResult :=
  (zipIdxFrom 0 idxs).foldl
    (fun acc bi_oi =>
      match llmRes bi_oi.1 with
      | some lr => listModify (updWith lr) bi_oi.2 acc
      | none => acc)
    math

/-- `_validate_semantic_coherence_batch(term_pairs)` with the arbitration
reply `resp?`: the per-index decision list (`{}` when there are no pairs). -/
def validateSemanticBatch (resp? : Option String) (pairs : List (String × String)) :
    List SemResult :=
  if pairs.isEmpty then []
  else
    let math_results := pairs.map (fun p => mathResult p.1 p.2)
    let llm_cases := llmCases pairs
    if llm_cases.isEmpty then math_results
    else applyLlm math_results (llmIndices pairs) (llm_validate_batch llm_cases resp?)

end Snomed

namespace Snomed

/-! ## `SNOMEDValidator` (snomed_validator.py)

The loaded store is modelled by its three tables.  The load step itself
(reading the release files) is an external data source; `storeWellFormed`
states the two properties that `_load_french_descriptions` guarantees for any
loaded store: every indexed label maps to a (nonempty) concept id, and every
preferred French label is itself present in the label index. -/

structure Validator where
  valid_concepts : List String
  french_terms : List (String × String)
  term_to_code : List (String × String)

/-- `find_exact_term_code` / `find_code_by_term`: case-insensitive,
whitespace-stripped exact lookup in the label index. -/
def find_exact_term_code (v : Validator) (term : String) : Option String :=
  v.term_to_code.lookup (pyNorm term)

/-- `validate_code`: active-concept membership. -/
def validate_code (v : Validator) (sctid : String) : Bool :=
  v.valid_concepts.contains sctid

/-- `get_french_term`: preferred French label of a concept. -/
def get_french_term (v : Validator) (sctid : String) : Option String :=
  v.french_terms.lookup sctid

/-- `find_closest_code`: the fallback is an alias of the exact lookup. -/
def find_closest_code (v : Validator) (term : String) : Option String :=
  v.term_to_code.lookup (pyNorm term)

/-- Invariants of a store built by `load_snomed_data`: the label index maps
only to nonempty concept ids (ids of active concepts read from the release
file), and each preferred label, being one of the indexed labels of its
concept, normalises to a key of the label index. -/
def storeWellFormed (v : Validator) : Prop :=
  (∀ p ∈ v.term_to_code, p.2 ≠ "") ∧
    (∀ p ∈ v.french_terms, (v.term_to_code.lookup (pyNorm p.2)).isSome = true)

instance (v : Validator) : Decidable (storeWellFormed v) := by
  unfold storeWellFormed; infer_instance

/-! ## `extract_triple_with_validation_fusion_v2` (snomed_extractor.py, 486–919)

The three oracle extraction runs are modelled by their structured outcomes
(`none` for a run whose result carried no `entities`), and the single
arbitration call of the semantic phase by its reply text.  The `statistics`
block and all timing fields of the Python result are observability output and
are not modelled; the result is the `entities` partition. -/

/-- One candidate term of one extraction run (after
`extract_medical_entities` flattening). -/
structure TermData where
  term : String
  snomed_code : String
  category : String
  negation : String
  family : String
  suspicion : String
  antecedent : String
deriving DecidableEq

/-- One validated record (phase 2). -/
structure VTerm where
  term : String
  snomed_code : String
  snomed_term : String
  valid : Bool
  negation : String
  family : String
  suspicion : String
  antecedent : String
  category : String
deriving DecidableEq

/-- One output entity. -/
structure Entity where
  term : String
  snomed_code : String
  snomed_term : String
  category : String
  negation : String
  family : String
  suspicion : String
  antecedent : String
deriving DecidableEq

/-- The final result: the three category buckets of the `entities` dict. -/
structure PipelineResult where
  findings : List Entity
  procedures : List Entity
  body_structures : List Entity
deriving DecidableEq

/-- All entities of a result, in bucket order. -/
def allEntities (r : PipelineResult) : List Entity :=
  r.findings ++ r.procedures ++ r.body_structures

/-- Python truthiness of an optional string (`if exact_code:`). -/
def truthyS : Option String → Bool
  | none => false
  | some s => !(s == "")

/-- `_categorize_by_snomed_code` (lines 1127–1162): the fixed prefix-priority
ladder. -/
def categorize_by_snomed_code (snomed_code : String) : String :=
  if [("271"), ("40"), ("38"), ("41"), ("27"), ("36"), ("23"), ("25"), ("42")].any
      (fun p => startsWithList p.data snomed_code.data) then "Clinical finding"
  else if [("71"), ("77"), ("23"), ("18"), ("38"), ("89"), ("17"), ("18")].any
      (fun p => startsWithList p.data snomed_code.data) then "Procedure"
  else if [("51"), ("81"), ("15"), ("79"), ("24"), ("36"), ("12"), ("91")].any
      (fun p => startsWithList p.data snomed_code.data) then "Body structure"
  else if [("36"), ("24"), ("25")].any
      (fun p => startsWithList p.data snomed_code.data) then "Observable entity"
  else if [("44"), ("37"), ("39"), ("41")].any
      (fun p => startsWithList p.data snomed_code.data) then "Substance"
  else "Clinical finding"

/-- The per-candidate priority cascade of phase 2 (lines 599–644): exact term
match, then the oracle-proposed code, then the fallback lookup; the record is
kept only if both resolved fields are truthy. -/
def validateOne (v : Validator) (td : TermData) : Option VTerm :=
  let exact_code := find_exact_term_code v td.term
  let resolved : Option (String × Option String) :=
    if truthyS exact_code then some (exact_code.getD "", some td.term)
    else if !(td.snomed_code == "UNKNOWN") && validate_code v td.snomed_code then
      some (td.snomed_code, get_french_term v td.snomed_code)
    else
      let fallback := find_closest_code v td.term
      if truthyS fallback then some (fallback.getD "", get_french_term v (fallback.getD ""))
      else none
  match resolved with
  | none => none
  | some (code, sterm?) =>
    if !(code == "") && truthyS sterm? then
      some { term := td.term, snomed_code := code, snomed_term := sterm?.getD "",
             valid := true, negation := td.negation, family := td.family,
             suspicion := td.suspicion, antecedent := td.antecedent,
             category := td.category }
    else none

/-- Phase 2 over all runs: validate each run's terms and collect the `valid`
records in run order. -/
def runValidation (v : Validator) (runs : List (Option (List TermData))) : List VTerm :=
  runs.foldl
    (fun acc run? =>
      match run? with
      | none => acc
      | some ts => acc ++ ((ts.filterMap (validateOne v)).filter (fun r => r.valid)))
    []

/-- Phase 3: first-seen-wins dedup keyed by `snomed_code`. -/
def dedupByCode : List VTerm → List String → List VTerm
  | [], _ => []
  | r :: rest, seen =>
    if seen.contains r.snomed_code then dedupByCode rest seen
    else r :: dedupByCode rest (r.snomed_code :: seen)

/-- Entity built on the no-semantic-validation path (lines 688–699). -/
def mkEntitySkip (r : VTerm) : Entity :=
  { term := r.term, snomed_code := r.snomed_code, snomed_term := r.snomed_term,
    category := categorize_by_snomed_code r.snomed_code,
    negation := r.negation, family := r.family, suspicion := r.suspicion,
    antecedent := r.antecedent }

/-- Entity built inside the semantic-application loop, with the exact-match
guard on `snomed_term` (lines 729–747 and 755–774). -/
def mkEntityGuard (v : Validator) (r : VTerm) : Entity :=
  { term := r.term, snomed_code := r.snomed_code,
    snomed_term :=
      if find_exact_term_code v r.term == some r.snomed_code then r.term
      else r.snomed_term,
    category := categorize_by_snomed_code r.snomed_code,
    negation := r.negation, family := r.family, suspicion := r.suspicion,
    antecedent := r.antecedent }

/-- Insert-or-replace on the `(lower original, lower official)`-keyed result
dict (Python `validation_results[...] = r`). -/
def insertKV {κ : Type} [BEq κ] (k : κ) (val : SemResult) :
    List (κ × SemResult) → List (κ × SemResult)
  | [] => [(k, val)]
  | (k2, v2) :: rest =>
    if k2 == k then (k, val) :: rest else (k2, v2) :: insertKV k val rest

/-- `validation_results`: associate each pair's lowercased key with its batch
verdict (lines 711–714). -/
def buildValidationResults (pairs : List (String × String)) (sem : List SemResult) :
    List ((String × String) × SemResult) :=
  (zipIdxFrom 0 pairs).foldl
    (fun acc ip =>
      match sem.get? ip.1 with
      | some r => insertKV (pyLower ip.2.1, pyLower ip.2.2) r acc
      | none => acc)
    []

/-- Application of the semantic verdicts to the fused pool (lines 717–774):
pairs judged invalid are dropped; identical pairs (no dict entry) are kept. -/
def applySemantic (v : Validator) (vres : List ((String × String) × SemResult)) :
    List VTerm → List Entity
  | [] => []
  | r :: rest =>
    let tailE := applySemantic v vres rest
    match vres.lookup (pyLower r.term, pyLower r.snomed_term) with
    | some sr => if sr.valid then mkEntityGuard v r :: tailE else tailE
    | none => mkEntityGuard v r :: tailE

/-- Insert-or-replace on the `seen_terms` dict of the final dedup. -/
def insertSeen (k : String) (e : Entity) :
    List (String × Entity) → List (String × Entity)
  | [] => [(k, e)]
  | (k2, v2) :: rest =>
    if k2 == k then (k, e) :: rest else (k2, v2) :: insertSeen k e rest

/-- Final same-original-term dedup (lines 780–811): identity-preferring
tie-break, first-seen otherwise.  `acc` is `final_deduplicated`, `seen` is
`seen_terms`. -/
def finalDedup : List Entity → List Entity → List (String × Entity) → List Entity
  | [], acc, _ => acc
  | e :: rest, acc, seen =>
    match seen.lookup (pyLower e.term) with
    | none => finalDedup rest (acc ++ [e]) (seen ++ [(pyLower e.term, e)])
    | some existing =>
      if pyLower e.term == pyLower e.snomed_term &&
          !(pyLower e.term == pyLower existing.snomed_term) then
        finalDedup rest (acc.erase existing ++ [e]) (insertSeen (pyLower e.term) e seen)
      else finalDedup rest acc seen

/-- The phase-5 rebuild of one entity: recomputed category and the
exact-match guard on `snomed_term` (lines 830–850). -/
def phase5Entity (v : Validator) (td : Entity) : Entity :=
  { term := td.term, snomed_code := td.snomed_code,
    snomed_term :=
      if find_exact_term_code v td.term == some td.snomed_code then td.term
      else td.snomed_term,
    category := categorize_by_snomed_code td.snomed_code,
    negation := td.negation, family := td.family, suspicion := td.suspicion,
    antecedent := td.antecedent }

/-- Phase 5 (lines 824–857): rebuild each entity (with the exact-match guard)
and partition by category keywords. -/
def phase5 (v : Validator) : List Entity → PipelineResult
  | [] => ⟨[], [], []⟩
  | td :: rest =>
    let r := phase5 v rest
    let e := phase5Entity v td
    if isSubstringOf ("finding").data (pyLower e.category).data ||
        isSubstringOf ("disorder").data (pyLower e.category).data then
      ⟨e :: r.findings, r.procedures, r.body_structures⟩
    else if isSubstringOf ("procedure").data (pyLower e.category).data then
      ⟨r.findings, e :: r.procedures, r.body_structures⟩
    else
      ⟨r.findings, r.procedures, e :: r.body_structures⟩

/-- The fused pool of phase 3. -/
def fusedPool (v : Validator) (runs : List (Option (List TermData))) : List VTerm :=
  dedupByCode (runValidation v runs) []

/-- `semantic_pairs`: the non-identical `(term, snomed_term)` pairs of the
fused pool (lines 678–683). -/
def semanticPairs (fused : List VTerm) : List (String × String) :=
  (fused.filter (fun r => !(pyLower r.term == pyLower r.snomed_term))).map
    (fun r => (r.term, r.snomed_term))

/-- `final_validated` after phases 4: either the skip path (all pairs
identical) or the semantic filter followed by the final dedup. -/
def finalValidated (v : Validator) (runs : List (Option (List TermData)))
    (resp? : Option String) : List Entity :=
  let fused := fusedPool v runs
  let semantic_pairs := semanticPairs fused
  if semantic_pairs.isEmpty then fused.map mkEntitySkip
  else
    let sem := validateSemanticBatch resp? semantic_pairs
    let vres := buildValidationResults semantic_pairs sem
    finalDedup (applySemantic v vres fused) [] []

/-- `extract_triple_with_validation_fusion_v2`: the whole pipeline from the
three structured extraction outcomes and the arbitration reply to the final
`entities` partition. -/
def pipeline (v : Validator) (runs : List (Option (List TermData)))
    (resp? : Option String) : PipelineResult :=
  phase5 v (finalValidated v runs resp?)

/-- A miniature loaded store for concrete runs: one active concept with one
French label. -/
def sampleStore : Validator :=
  { valid_concepts := [("386661006")],
    french_terms := [(("386661006"), ("fièvre"))],
    term_to_code := [(("fièvre"), ("386661006"))] }

/-- One extraction run proposing the label verbatim. -/
def sampleRuns : List (Option (List TermData)) :=
  [some [{ term := ("fièvre"), snomed_code := ("386661006"),
           category := ("clinical_finding"), negation := ("positive"),
           family := ("patient"), suspicion := ("confirmed"),
           antecedent := ("current") }]]

/-- The entity the pipeline produces from `sampleRuns` over `sampleStore`. -/
def sampleEntity : Entity :=
  { term := ("fièvre"), snomed_code := ("386661006"), snomed_term := ("fièvre"),
    category := ("Clinical finding"), negation := ("positive"),
    family := ("patient"), suspicion := ("confirmed"), antecedent := ("current") }

/-! ## Definitions modelled from the spec, and proof-level predicates -/

/-- The spec's `levenshteinRatio(a,b)`: character-sequence similarity of the
lowercased strings. -/
def levenshteinPart (a b : String) : ℚ := ratioQ (pyLower a) (pyLower b)

/-- The spec's `wordOverlapRatio(a,b)`: shared whitespace-tokenized words over
the larger word-set size, as a raw rational quotient (division by the
zero size of two empty word sets yields `0` under `ℚ`'s convention). -/
def wordOverlapPart (a b : String) : ℚ :=
  (((wordToks (pyLower a)).filter (fun t => memTok t (wordToks (pyLower b)))).length : ℚ) /
    ((max (wordToks (pyLower a)).length (wordToks (pyLower b)).length : Nat) : ℚ)

/-- The spec's `containment(a,b)`: `1.0` iff either lowercase-trimmed string
is a substring of the other. -/
def containmentPart (a b : String) : ℚ :=
  if isSubstringOf (stripChars (lowerChars a.data)) (stripChars (lowerChars b.data)) ||
      isSubstringOf (stripChars (lowerChars b.data)) (stripChars (lowerChars a.data)) then 1
  else 0

/-- The decoded JSON payload of an arbitration reply (brace-span extraction
followed by decoding). -/
def llmPayloadOf (s : String) : Option Json :=
  match llmExtractJson s with
  | some js => jsonDecode js
  | none => none

/-- The `validations` array of a decoded payload: a missing key reads as the
default `[]`; a payload that is not an object, or whose `validations` is not
an array, makes the iteration raise (`none`). -/
def validationsOf : Json → Option (List Json)
  | .obj fields =>
    match objGet fields ("validations") with
    | some (.arr l) => some l
    | none => some []
    | some _ => none
  | _ => none

/-- Entry `e` writes a verdict for 0-based pair index `i` (of `n` pairs). -/
def entryAssigns (n i : Nat) (e : Json) : Prop :=
  ∃ fields pv mv k, e = Json.obj fields ∧
    nonNull (objGet fields ("paire")) = some pv ∧
    nonNull (objGet fields ("meme_concept")) = some mv ∧
    pyIntVal pv = some k ∧ 0 ≤ k - 1 ∧ k - 1 < (n : Int) ∧ k - 1 = (i : Int)

/-- Entry `e` writes an *accepting* verdict for pair index `i`. -/
def entryAccepts (n i : Nat) (e : Json) : Prop :=
  ∃ fields pv mv k, e = Json.obj fields ∧
    nonNull (objGet fields ("paire")) = some pv ∧
    nonNull (objGet fields ("meme_concept")) = some mv ∧
    pyIntVal pv = some k ∧ 0 ≤ k - 1 ∧ k - 1 < (n : Int) ∧ k - 1 = (i : Int) ∧
    jsonTruthy mv = true

/-- What phase 2 records: the resolution used the exact label match (and then
the official term *is* the original term), or the label lookup was not a
(truthy) hit and the official term is the store's label for the resolved
code. -/
def recordD (v : Validator) (r : VTerm) : Prop :=
  (find_exact_term_code v r.term = some r.snomed_code ∧ r.snomed_code ≠ "" ∧
    r.snomed_term = r.term) ∨
  (truthyS (find_exact_term_code v r.term) = false ∧
    get_french_term v r.snomed_code = some r.snomed_term)

/-- The invariant of the final-dedup loop: the accumulator has pairwise
distinct lowercased terms, and `seen` is exactly its index by lowercased
term. -/
def dedupInv (acc : List Entity) (seen : List (String × Entity)) : Prop :=
  acc.Pairwise (fun e1 e2 => pyLower e1.term ≠ pyLower e2.term) ∧
  (∀ t e, seen.lookup t = some e → e ∈ acc ∧ pyLower e.term = t) ∧
  (∀ e ∈ acc, seen.lookup (pyLower e.term) = some e)

end Snomed

namespace Snomed

/-! ## Supporting lemmas: `SequenceMatcher` bounds -/

/-- Generic fold invariant. -/
theorem foldl_inv {α β : Type} (P : β → Prop) (step : β → α → β) :
    ∀ (l : List α) (init : β), P init → (∀ acc x, x ∈ l → P acc → P (step acc x)) →
      P (l.foldl step init) := by
  intro l
  induction l with
  | nil => intro init h _; exact h
  | cons x xs ih =>
    intro init h hstep
    exact ih (step init x) (hstep init x (List.mem_cons_self x xs) h)
      (fun acc y hy => hstep acc y (List.mem_cons_of_mem x hy))

theorem candPairs_mem {alo ahi blo bhi i j : Nat}
    (h : (i, j) ∈ candPairs alo ahi blo bhi) :
    alo ≤ i ∧ i < ahi ∧ blo ≤ j ∧ j < bhi := by
  unfold candPairs at h
  simp only [List.mem_flatMap, List.mem_map, List.mem_range] at h
  obtain ⟨di, hdi, dj, hdj, heq⟩ := h
  obtain ⟨hi, hj⟩ := Prod.mk.injEq .. ▸ heq
  omega

theorem bestMatch_bounds (a b : List Char) (alo ahi blo bhi : Nat) :
    (bestMatch a b alo ahi blo bhi).2.2 ≠ 0 →
      alo ≤ (bestMatch a b alo ahi blo bhi).1 ∧
      (bestMatch a b alo ahi blo bhi).1 + (bestMatch a b alo ahi blo bhi).2.2 ≤ ahi ∧
      blo ≤ (bestMatch a b alo ahi blo bhi).2.1 ∧
      (bestMatch a b alo ahi blo bhi).2.1 + (bestMatch a b alo ahi blo bhi).2.2 ≤ bhi := by
  unfold bestMatch
  refine foldl_inv
    (fun (best : Nat × Nat × Nat) => best.2.2 ≠ 0 →
      alo ≤ best.1 ∧ best.1 + best.2.2 ≤ ahi ∧ blo ≤ best.2.1 ∧ best.2.1 + best.2.2 ≤ bhi)
    _ _ _ (by intro h; exact absurd rfl h) ?_
  intro acc ij hij hacc
  by_cases hlt : acc.2.2 < blockLenAt a b ahi bhi ij.1 ij.2
  · simp only [hlt, if_pos]
    intro _
    have hmem := @candPairs_mem alo ahi blo bhi ij.1 ij.2 (by simpa using hij)
    have hk : blockLenAt a b ahi bhi ij.1 ij.2 ≤ min (ahi - ij.1) (bhi - ij.2) := by
      unfold blockLenAt; omega
    omega
  · simp only [hlt, if_neg, if_false]
    exact hacc

theorem matchTotal_le (a b : List Char) :
    ∀ (fuel alo ahi blo bhi : Nat),
      matchTotal a b fuel alo ahi blo bhi ≤ min (ahi - alo) (bhi - blo) := by
  intro fuel
  induction fuel with
  | zero => intro alo ahi blo bhi; simp [matchTotal]
  | succ n ih =>
    intro alo ahi blo bhi
    show matchTotal a b (n + 1) alo ahi blo bhi ≤ _
    unfold matchTotal
    by_cases hz : (bestMatch a b alo ahi blo bhi).2.2 = 0
    · simp [hz]
    · have hb := bestMatch_bounds a b alo ahi blo bhi hz
      have h1 := ih alo (bestMatch a b alo ahi blo bhi).1 blo (bestMatch a b alo ahi blo bhi).2.1
      have h2 := ih ((bestMatch a b alo ahi blo bhi).1 + (bestMatch a b alo ahi blo bhi).2.2) ahi
        ((bestMatch a b alo ahi blo bhi).2.1 + (bestMatch a b alo ahi blo bhi).2.2) bhi
      simp only [hz, if_neg, if_false]
      omega

theorem seqMatches_le (x y : String) :
    2 * seqMatches x y ≤ x.data.length + y.data.length := by
  have h := matchTotal_le x.data y.data (x.data.length + y.data.length + 1)
    0 x.data.length 0 y.data.length
  unfold seqMatches
  omega

theorem ratioQ_bounds (x y : String) : 0 ≤ ratioQ x y ∧ ratioQ x y ≤ 1 := by
  unfold ratioQ
  by_cases ht : x.data.length + y.data.length = 0
  · rw [if_pos ht]
    norm_num
  · rw [if_neg ht]
    have hpos : (0 : ℚ) < ((x.data.length + y.data.length : Nat) : ℚ) := by
      exact_mod_cast Nat.pos_of_ne_zero ht
    have hle : ((2 * seqMatches x y : Nat) : ℚ) ≤ ((x.data.length + y.data.length : Nat) : ℚ) := by
      exact_mod_cast seqMatches_le x y
    constructor
    · positivity
    · rw [div_le_one (by exact_mod_cast Nat.pos_of_ne_zero ht)]
      push_cast at hle ⊢
      linarith

/-- Component-wise evaluation of `calculate_math_score`. -/
theorem score_eval (a b : String) (M T I W : Nat) (e c : Bool)
    (hM : seqMatches (pyLower a) (pyLower b) = M)
    (hT : (pyLower a).data.length + (pyLower b).data.length = T)
    (hI : ((wordToks (pyLower a)).filter
      (fun t => memTok t (wordToks (pyLower b)))).length = I)
    (hW : max (wordToks (pyLower a)).length (wordToks (pyLower b)).length = W)
    (he : ((wordToks (pyLower a)).isEmpty && (wordToks (pyLower b)).isEmpty) = e)
    (hc : (isSubstringOf (stripChars (lowerChars a.data)) (stripChars (lowerChars b.data)) ||
      isSubstringOf (stripChars (lowerChars b.data)) (stripChars (lowerChars a.data))) = c) :
    calculate_math_score a b =
      (if T = 0 then 1 else (2 * M : ℚ) / (T : ℚ)) * (3/10) +
      (if e then 0 else (I : ℚ) / (W : ℚ)) * (4/10) +
      (if c then 1 else 0) * (3/10) := by
  simp only [calculate_math_score, ratioQ]
  rw [hM, hT, hI, he, hc, ← Nat.cast_max, hW]

/-! ## Claim theorems: the lexical score (C6, C10) -/

/-- C6: `calculate_math_score` equals the spec's weighted sum
`0.3·levenshteinRatio + 0.4·wordOverlapRatio + 0.3·containment`, all inputs
lowercase-normalised before scoring.  (The code's guard for two empty word
sets agrees with the quotient form, which is `0/0 = 0` there.) -/
theorem score_is_weighted_sum (a b : String) :
    calculate_math_score a b =
      3/10 * levenshteinPart a b + 4/10 * wordOverlapPart a b +
        3/10 * containmentPart a b := by
  unfold calculate_math_score levenshteinPart wordOverlapPart containmentPart
  simp only
  by_cases he : ((wordToks (pyLower a)).isEmpty && (wordToks (pyLower b)).isEmpty) = true
  · have ha : wordToks (pyLower a) = [] := by
      rcases Bool.and_eq_true .. ▸ he with ⟨h1, _⟩
      exact List.isEmpty_iff.mp h1
    have hb : wordToks (pyLower b) = [] := by
      rcases Bool.and_eq_true .. ▸ he with ⟨_, h2⟩
      exact List.isEmpty_iff.mp h2
    rw [he]
    simp only [ha, hb, List.filter_nil, List.length_nil, Nat.cast_zero, if_true]
    norm_num
    ring
  · rw [if_neg he]
    simp only [Nat.cast_max]
    ring

/-- C10: the lexical score always lies in `[0, 1]` (over exact rationals). -/
theorem score_in_unit_interval (a b : String) :
    0 ≤ calculate_math_score a b ∧ calculate_math_score a b ≤ 1 := by
  unfold calculate_math_score
  simp only
  have hr := ratioQ_bounds (pyLower a) (pyLower b)
  set l := ratioQ (pyLower a) (pyLower b) with hl
  set wa := wordToks (pyLower a)
  set wb := wordToks (pyLower b)
  have hw : 0 ≤ (if wa.isEmpty && wb.isEmpty then (0 : ℚ)
        else ((wa.filter (fun t => memTok t wb)).length : ℚ) / (max wa.length wb.length : ℚ)) ∧
      (if wa.isEmpty && wb.isEmpty then (0 : ℚ)
        else ((wa.filter (fun t => memTok t wb)).length : ℚ) / (max wa.length wb.length : ℚ)) ≤ 1 := by
    by_cases he : (wa.isEmpty && wb.isEmpty) = true
    · simp [he]
    · rw [if_neg he]
      have hne : ¬(wa = [] ∧ wb = []) := by
        intro ⟨h1, h2⟩
        exact he (by simp [h1, h2])
      have hmax : 1 ≤ max wa.length wb.length := by
        rcases Decidable.not_and_iff_or_not.mp hne with h | h
        · have := List.length_pos.mpr h; omega
        · have := List.length_pos.mpr h; omega
      have hfilter : (wa.filter (fun t => memTok t wb)).length ≤ max wa.length wb.length := by
        have := List.length_filter_le (fun t => memTok t wb) wa
        omega
      constructor
      · positivity
      · rw [div_le_one (by exact_mod_cast hmax)]
        exact_mod_cast hfilter
  set c := (if isSubstringOf (stripChars (lowerChars a.data)) (stripChars (lowerChars b.data)) ||
      isSubstringOf (stripChars (lowerChars b.data)) (stripChars (lowerChars a.data))
    then (1 : ℚ) else 0) with hc
  have hcb : 0 ≤ c ∧ c ≤ 1 := by
    rw [hc]; split <;> norm_num
  constructor
  · nlinarith [hr.1, hr.2, hw.1, hw.2, hcb.1, hcb.2]
  · nlinarith [hr.1, hr.2, hw.1, hw.2, hcb.1, hcb.2]

end Snomed

namespace Snomed

/-! ## Claim theorems: the categorizer (C8) -/

/-- Monotonicity of `List.any` of the prefix test under list inclusion. -/
theorem any_starts_sub (l1 l2 : List String) {code : String}
    (hsub : ∀ p ∈ l1, p ∈ l2)
    (h : (l1.any (fun p => startsWithList p.data code.data)) = true) :
    (l2.any (fun p => startsWithList p.data code.data)) = true := by
  simp only [List.any_eq_true] at h ⊢
  obtain ⟨p, hp, hs⟩ := h
  exact ⟨p, hsub p hp, hs⟩

/-- C8: `_categorize_by_snomed_code` never returns `"Observable entity"`:
each observable-entity prefix (`36`, `24`, `25`) is claimed by an earlier
branch of the fixed priority order (`36`/`25` by clinical finding, `24` by
body structure), so that branch is unreachable; every code maps to one of the
four reachable categories, and a code matching no prefix at all defaults to
`"Clinical finding"`. -/
theorem categorize_no_observable (code : String) :
    categorize_by_snomed_code code ≠ "Observable entity" ∧
    (categorize_by_snomed_code code = "Clinical finding" ∨
      categorize_by_snomed_code code = "Procedure" ∨
      categorize_by_snomed_code code = "Body structure" ∨
      categorize_by_snomed_code code = "Substance") ∧
    (([("271"), ("40"), ("38"), ("41"), ("27"), ("36"), ("23"), ("25"), ("42"),
        ("71"), ("77"), ("18"), ("89"), ("17"),
        ("51"), ("81"), ("15"), ("79"), ("24"), ("12"), ("91"),
        ("44"), ("37"), ("39")].any
      (fun p => startsWithList p.data code.data)) = false →
      categorize_by_snomed_code code = "Clinical finding") := by
  unfold categorize_by_snomed_code
  split_ifs with h1 h2 h3 h4 h5
  · exact ⟨by decide, Or.inl rfl, fun _ => rfl⟩
  · refine ⟨by decide, Or.inr (Or.inl rfl), fun hno => ?_⟩
    have hb := any_starts_sub _ ([("271"), ("40"), ("38"), ("41"), ("27"), ("36"),
      ("23"), ("25"), ("42"), ("71"), ("77"), ("18"), ("89"), ("17"),
      ("51"), ("81"), ("15"), ("79"), ("24"), ("12"), ("91"),
      ("44"), ("37"), ("39")]) (by decide) h2
    rw [hno] at hb
    exact absurd hb (by decide)
  · refine ⟨by decide, Or.inr (Or.inr (Or.inl rfl)), fun hno => ?_⟩
    have hb := any_starts_sub _ ([("271"), ("40"), ("38"), ("41"), ("27"), ("36"),
      ("23"), ("25"), ("42"), ("71"), ("77"), ("18"), ("89"), ("17"),
      ("51"), ("81"), ("15"), ("79"), ("24"), ("12"), ("91"),
      ("44"), ("37"), ("39")]) (by decide) h3
    rw [hno] at hb
    exact absurd hb (by decide)
  · exfalso
    rcases List.any_eq_true.mp h4 with ⟨p, hp, hs⟩
    simp only [List.mem_cons, List.not_mem_nil, or_false] at hp
    rcases hp with rfl | rfl | rfl
    · exact h1 (List.any_eq_true.mpr ⟨("36"), by decide, hs⟩)
    · exact h3 (List.any_eq_true.mpr ⟨("24"), by decide, hs⟩)
    · exact h1 (List.any_eq_true.mpr ⟨("25"), by decide, hs⟩)
  · refine ⟨by decide, Or.inr (Or.inr (Or.inr rfl)), fun hno => ?_⟩
    have hb := any_starts_sub _ ([("271"), ("40"), ("38"), ("41"), ("27"), ("36"),
      ("23"), ("25"), ("42"), ("71"), ("77"), ("18"), ("89"), ("17"),
      ("51"), ("81"), ("15"), ("79"), ("24"), ("12"), ("91"),
      ("44"), ("37"), ("39")]) (by decide) h5
    rw [hno] at hb
    exact absurd hb (by decide)
  · exact ⟨by decide, Or.inl rfl, fun _ => rfl⟩

/-- C8 witness: a code matching no prefix is categorized `"Clinical finding"`
(and, as for every code, not `"Observable entity"`). -/
theorem categorize_no_observable_witness :
    categorize_by_snomed_code ("999999999") ≠ "Observable entity" ∧
      categorize_by_snomed_code ("999999999") = "Clinical finding" :=
  ⟨(categorize_no_observable ("999999999")).1,
    (categorize_no_observable ("999999999")).2.2 (by decide)⟩

end Snomed

namespace Snomed

/-! ## Claim theorems: response parsing (C9, C7) -/

/-- A value parsed from input starting with `\x7b` is an object. -/
theorem parseValue_obj : ∀ (fuel : Nat) (cs rest : List Char) (v : Json),
    parseValue fuel ('{' :: cs) = some (v, rest) → isObjVal v = true := by
  intro fuel cs rest v h
  match fuel with
  | 0 => exact absurd h (by simp [parseValue])
  | fuel + 1 =>
    rw [parseValue] at h
    have hw : Char.isWhitespace '{' = false := by decide
    rw [List.dropWhile_cons, hw] at h
    simp only [if_false, Bool.false_eq_true] at h
    have hb : ('{' == '{') = true := by decide
    rw [hb] at h
    simp only [if_true] at h
    split at h
    · obtain ⟨hv, _⟩ := Prod.mk.injEq .. ▸ Option.some.injEq .. ▸ h
      rw [← hv]; rfl
    · split at h
      · obtain ⟨hv, _⟩ := Prod.mk.injEq .. ▸ Option.some.injEq .. ▸ h
        rw [← hv]; rfl
      · exact absurd h (by simp)

/-- A span found by the greedy regex starts with `\x7b`. -/
theorem searchBraces_starts : ∀ (cs m : List Char),
    searchBraces cs = some m → ∃ t, m = '{' :: t := by
  intro cs
  induction cs with
  | nil => intro m h; exact absurd h (by simp [searchBraces])
  | cons c rest ih =>
    intro m h
    rw [searchBraces] at h
    by_cases hc : (c == '{') = true
    · rw [if_pos hc] at h
      split at h
      · next t heq =>
        cases Option.some.inj h
        exact ⟨t, by rw [eq_of_beq hc]⟩
      · exact ih m h
    · rw [if_neg hc] at h
      exact ih m h

/-- A decoded span found by the greedy regex decodes to an object. -/
theorem jsonDecode_searchBraces_obj {s : String} {m : List Char} {v : Json}
    (hm : searchBraces s.data = some m) (hd : jsonDecode ⟨m⟩ = some v) :
    isObjVal v = true := by
  obtain ⟨t, rfl⟩ := searchBraces_starts s.data m hm
  unfold jsonDecode at hd
  split at hd
  · next val heq =>
    split at hd
    · obtain rfl := Option.some.injEq .. ▸ hd
      exact parseValue_obj _ _ _ _ heq
    · exact absurd hd (by simp)
  · exact absurd hd (by simp)

/-- C9: `parse_gemini_response` is total and fail-safe: it always returns a
JSON dictionary, and whenever the reply contains no extractable span (the
regex finds no match) or the extracted span fails to decode, it returns
exactly `{"concepts_medicaux": []}`. -/
theorem parse_gemini_response_total (s : String) :
    isObjVal (parse_gemini_response s) = true ∧
    (searchBraces s.data = none → parse_gemini_response s = emptyConcepts) ∧
    (∀ m, searchBraces s.data = some m → jsonDecode ⟨m⟩ = none →
      parse_gemini_response s = emptyConcepts) := by
  refine ⟨?_, ?_, ?_⟩
  · unfold parse_gemini_response
    split
    · next m hm =>
      split
      · next v hv => exact jsonDecode_searchBraces_obj hm hv
      · rfl
    · rfl
  · intro hn
    unfold parse_gemini_response
    rw [hn]
  · intro m hm hd
    unfold parse_gemini_response
    rw [hm]
    simp only [hd]

/-- C9 witness: a reply with no braces yields the (dictionary-shaped)
fallback. -/
theorem parse_gemini_response_total_witness :
    isObjVal (parse_gemini_response ("pas de JSON ici")) = true ∧
      parse_gemini_response ("pas de JSON ici") = emptyConcepts :=
  ⟨(parse_gemini_response_total ("pas de JSON ici")).1,
    (parse_gemini_response_total ("pas de JSON ici")).2.1 rfl⟩

/-- C7 counterexample: on the reply `\x7b"a": 1\x7d \x7d` — a complete JSON
object followed by text containing a later closing brace — the code decodes
the greedy span (which fails, giving the fallback), *not* the first balanced
object `\x7b"a": 1\x7d` that the spec describes. -/
theorem parse_reply_not_first_balanced :
    parse_gemini_response ("\x7b\"a\": 1\x7d \x7d") = emptyConcepts ∧
    specParseReply ("\x7b\"a\": 1\x7d \x7d") = some (Json.obj [("a", Json.num 1)]) ∧
    emptyConcepts ≠ Json.obj [("a", Json.num 1)] := by
  refine ⟨rfl, rfl, ?_⟩
  intro h
  rw [emptyConcepts] at h
  obtain h2 := Json.obj.injEq .. ▸ h
  obtain ⟨h3, _⟩ := List.cons.injEq .. ▸ h2
  obtain ⟨h4, _⟩ := Prod.mk.injEq .. ▸ h3
  exact absurd h4 (by decide)

/-- If `cs` has no `\x7d` then neither has any suffix considered by the
regex search, so there is no match. -/
theorem searchBraces_none_of_noClose : ∀ (cs : List Char),
    upToLastClose cs = none → searchBraces cs = none := by
  intro cs
  induction cs with
  | nil => intro _; rfl
  | cons c rest ih =>
    intro h
    rw [upToLastClose] at h
    rw [searchBraces]
    split at h
    · exact absurd h (by simp)
    · next hnone =>
      split at h
      · exact absurd h (by simp)
      · split
        · exact ih hnone
        · exact ih hnone

/-- The greedy regex match is exactly the span from the first `\x7b` to the
last `\x7d` (when the last `\x7d` comes later). -/
theorem searchBraces_eq_span : ∀ (cs : List Char),
    searchBraces cs = spanFirstToLast cs := by
  intro cs
  induction cs with
  | nil => rfl
  | cons c rest ih =>
    rw [searchBraces, spanFirstToLast]
    by_cases hc : (c == '{') = true
    · rw [if_pos hc]
      rw [List.dropWhile_cons]
      simp only [hc, Bool.not_true, Bool.false_eq_true, if_false]
      split
      · rfl
      · next hnone => rw [searchBraces_none_of_noClose rest hnone]
    · rw [if_neg hc]
      rw [List.dropWhile_cons]
      simp only [hc, Bool.not_false, if_true]
      rw [ih, spanFirstToLast]

/-- C7 (amended): the parse step extracts the substring running from the
first opening brace of the reply to its *last* closing brace (the greedy
`\x7b.*\x7d` match) and decodes that; decoding failure — in particular when
trailing text after a complete object contains a later closing brace — yields
the empty fallback payload. -/
theorem parse_reply_first_to_last (s : String) :
    parse_gemini_response s =
      (match spanFirstToLast s.data with
        | some m =>
          (match jsonDecode ⟨m⟩ with
            | some v => v
            | none => emptyConcepts)
        | none => emptyConcepts) := by
  unfold parse_gemini_response
  rw [searchBraces_eq_span]

end Snomed

namespace Snomed

/-! ## Claim theorems: fail-closed batched arbitration (C4) -/


/-- `processEntry` leaves untouched every index the entry does not assign. -/
theorem processEntry_untouched {n : Nat} {acc acc2 : Nat → Option LlmResult}
    {e : Json} {i : Nat} (h : processEntry n acc e = some acc2)
    (hna : ¬ entryAssigns n i e) : acc2 i = acc i := by
  unfold processEntry at h
  split at h
  · next fields =>
    split at h
    · next pv mv hpv hmv =>
      split at h
      · next k hk =>
        split at h
        · next hrange =>
          cases Option.some.inj h
          simp only
          split
          · next hidx =>
            exact absurd ⟨fields, pv, mv, k, rfl, hpv, hmv, hk, hrange.1, hrange.2,
              hidx ▸ rfl⟩ hna
          · rfl
        · cases Option.some.inj h; rfl
      · exact absurd h (by simp)
    · next hns =>
      cases Option.some.inj h; rfl
  · exact absurd h (by simp)

/-- If `processEntry` stores an accepting verdict at `i`, the entry accepts
`i`; any other stored verdict at `i` is rejecting. -/
theorem processEntry_valid {n : Nat} {acc acc2 : Nat → Option LlmResult}
    {e : Json} {i : Nat} {r : LlmResult} (h : processEntry n acc e = some acc2)
    (hr : acc2 i = some r) (hv : r.valid = true) :
    (∃ r0, acc i = some r0 ∧ r0.valid = true) ∨ entryAccepts n i e := by
  unfold processEntry at h
  split at h
  · next fields =>
    split at h
    · next pv mv hpv hmv =>
      split at h
      · next k hk =>
        split at h
        · next hrange =>
          cases Option.some.inj h
          simp only at hr
          split at hr
          · next hidx =>
            cases Option.some.inj hr
            split at hv
            · next htr =>
              exact Or.inr ⟨fields, pv, mv, k, rfl, hpv, hmv, hk, hrange.1, hrange.2,
                hidx ▸ rfl, htr⟩
            · exact absurd hv (by simp)
          · exact Or.inl ⟨r, hr, hv⟩
        · cases Option.some.inj h
          exact Or.inl ⟨r, hr, hv⟩
      · exact absurd h (by simp)
    · cases Option.some.inj h
      exact Or.inl ⟨r, hr, hv⟩
  · exact absurd h (by simp)

/-- Over a whole entry list: an index assigned by no entry keeps its initial
(absent) verdict. -/
theorem processValidations_untouched {n : Nat} :
    ∀ (entries : List Json) (acc0 accF : Nat → Option LlmResult) (i : Nat),
      processValidations n entries acc0 = some accF →
      (∀ e ∈ entries, ¬ entryAssigns n i e) → accF i = acc0 i := by
  intro entries
  induction entries with
  | nil =>
    intro acc0 accF i h _
    cases Option.some.inj h; rfl
  | cons e rest ih =>
    intro acc0 accF i h hna
    rw [processValidations] at h
    split at h
    · next acc2 h2 =>
      rw [ih acc2 accF i h (fun e2 he2 => hna e2 (List.mem_cons_of_mem e he2))]
      exact processEntry_untouched h2 (hna e (List.mem_cons_self e rest))
    · exact absurd h (by simp)

/-- Over a whole entry list: an accepting final verdict at `i` traces back to
an initial accepting verdict or an accepting entry. -/
theorem processValidations_valid {n : Nat} :
    ∀ (entries : List Json) (acc0 accF : Nat → Option LlmResult) (i : Nat)
      (r : LlmResult),
      processValidations n entries acc0 = some accF →
      accF i = some r → r.valid = true →
      (∃ r0, acc0 i = some r0 ∧ r0.valid = true) ∨ ∃ e ∈ entries, entryAccepts n i e := by
  intro entries
  induction entries with
  | nil =>
    intro acc0 accF i r h hr hv
    cases Option.some.inj h
    exact Or.inl ⟨r, hr, hv⟩
  | cons e rest ih =>
    intro acc0 accF i r h hr hv
    rw [processValidations] at h
    split at h
    · next acc2 h2 =>
      rcases ih acc2 accF i r h hr hv with ⟨r0, hr0, hv0⟩ | ⟨e2, he2, hacc⟩
      · rcases processEntry_valid h2 hr0 hv0 with h3 | h3
        · exact Or.inl h3
        · exact Or.inr ⟨e, List.mem_cons_self e rest, h3⟩
      · exact Or.inr ⟨e2, List.mem_cons_of_mem e he2, hacc⟩
    · exact absurd h (by simp)

/-- Helper for C4: the claim's conclusion for an all-rejected
`"Erreur LLM"` table, produced whenever iterating the decoded payload's
`validations` would raise (payload not an object, or `validations` not an
array). -/
theorem c4_reject_err (pairs : List (String × String)) (i : Nat) (hi : i < pairs.length)
    (w : Json) (hnone : validationsOf w = none) (s0 : String)
    (hveq : ∀ {s : String} {v : Json}, some s0 = some s → llmPayloadOf s = some v → v = w) :
    ∃ r, allRejected pairs.length ("Erreur LLM") i = some r ∧
      (r.valid = true → ∃ s v entries, some s0 = some s ∧ llmPayloadOf s = some v ∧
        validationsOf v = some entries ∧ ∃ e ∈ entries, entryAccepts pairs.length i e) ∧
      (some s0 = none → r.valid = false) ∧
      (∀ s, some s0 = some s → llmPayloadOf s = none → r.valid = false) ∧
      (∀ s v, some s0 = some s → llmPayloadOf s = some v → validationsOf v = none →
        r.valid = false) ∧
      (∀ s v entries, some s0 = some s → llmPayloadOf s = some v →
        validationsOf v = some entries →
        processValidations pairs.length entries (fun _ => none) = none →
        r.valid = false) ∧
      (∀ s v entries acc, some s0 = some s → llmPayloadOf s = some v →
        validationsOf v = some entries →
        processValidations pairs.length entries (fun _ => none) = some acc →
        (∀ e ∈ entries, ¬ entryAssigns pairs.length i e) →
        r.valid = false ∧ r.reason = "Paire non trouvée dans la réponse") := by
  refine ⟨⟨false, 0, ("Erreur LLM")⟩, by simp [allRejected, hi], ?_, ?_,
    fun s hs hp => rfl, fun s v hs hp hno => rfl, fun s v entries hs hp hvo2 hproc2 => rfl,
    ?_⟩
  · intro h; exact Bool.noConfusion h
  · intro h; exact Option.noConfusion h
  · intro s v entries acc2 hs hp hvo2 hproc2 hno
    have hv := hveq hs hp
    subst hv
    rw [hnone] at hvo2
    exact Option.noConfusion hvo2

/-- C4: batched arbitration fails closed.  For every pair list, oracle
outcome and in-range index, the batch verdict table is defined at that index,
and: a pair is accepted only on the strength of an explicit accepting entry
of a successfully decoded reply; an oracle exception, an unextractable or
undecodable reply, a reply whose `validations` cannot be iterated, or an
iteration that raises, each reject the pair; and under a well-formed decoded
reply an index assigned by no entry is rejected with the
not-found-in-response explanation. -/
theorem llm_validate_batch_fail_closed (pairs : List (String × String))
    (resp? : Option String) (i : Nat) (hi : i < pairs.length) :
    ∃ r, llm_validate_batch pairs resp? i = some r ∧
      (r.valid = true → ∃ s v entries, resp? = some s ∧ llmPayloadOf s = some v ∧
        validationsOf v = some entries ∧ ∃ e ∈ entries, entryAccepts pairs.length i e) ∧
      (resp? = none → r.valid = false) ∧
      (∀ s, resp? = some s → llmPayloadOf s = none → r.valid = false) ∧
      (∀ s v, resp? = some s → llmPayloadOf s = some v → validationsOf v = none →
        r.valid = false) ∧
      (∀ s v entries, resp? = some s → llmPayloadOf s = some v →
        validationsOf v = some entries →
        processValidations pairs.length entries (fun _ => none) = none →
        r.valid = false) ∧
      (∀ s v entries acc, resp? = some s → llmPayloadOf s = some v →
        validationsOf v = some entries →
        processValidations pairs.length entries (fun _ => none) = some acc →
        (∀ e ∈ entries, ¬ entryAssigns pairs.length i e) →
        r.valid = false ∧ r.reason = "Paire non trouvée dans la réponse") := by
  have hn : ¬(pairs.length = 0) := by omega
  unfold llm_validate_batch
  rw [if_neg hn]
  cases hresp : resp? with
  | none =>
    refine ⟨⟨false, 0, ("Erreur LLM")⟩, by simp [allRejected, hi], ?_, fun _ => rfl,
      ?_, ?_, ?_, ?_⟩
    · intro h; exact Bool.noConfusion h
    · intro s h; exact Option.noConfusion h
    · intro s v h; exact Option.noConfusion h
    · intro s v entries h; exact Option.noConfusion h
    · intro s v entries acc h; exact Option.noConfusion h
  | some s0 =>
    cases hex : llmExtractJson s0 with
    | none =>
      refine ⟨⟨false, 0, ("Échec parsing JSON")⟩, by simp [hex, allRejected, hi], ?_, ?_,
        fun s hs hp => rfl, ?_, ?_, ?_⟩
      · intro h; exact Bool.noConfusion h
      · intro h; exact Option.noConfusion h
      · intro s v hs hp
        cases Option.some.inj hs
        rw [llmPayloadOf, hex] at hp
        exact Option.noConfusion hp
      · intro s v entries hs hp
        cases Option.some.inj hs
        rw [llmPayloadOf, hex] at hp
        exact Option.noConfusion hp
      · intro s v entries acc hs hp
        cases Option.some.inj hs
        rw [llmPayloadOf, hex] at hp
        exact Option.noConfusion hp
    | some js =>
      have hpay : ∀ (w : Json), llmPayloadOf s0 = some w ↔ jsonDecode js = some w := by
        intro w
        rw [llmPayloadOf, hex]
      cases hdec : jsonDecode js with
      | none =>
        refine ⟨⟨false, 0, ("Erreur JSON")⟩, by simp [hex, hdec, allRejected, hi], ?_, ?_,
          fun s hs hp => rfl, ?_, ?_, ?_⟩
        · intro h; exact Bool.noConfusion h
        · intro h; exact Option.noConfusion h
        · intro s v hs hp
          cases Option.some.inj hs
          rw [(hpay v).mp hp] at hdec
          exact Option.noConfusion hdec
        · intro s v entries hs hp
          cases Option.some.inj hs
          rw [(hpay v).mp hp] at hdec
          exact Option.noConfusion hdec
        · intro s v entries acc hs hp
          cases Option.some.inj hs
          rw [(hpay v).mp hp] at hdec
          exact Option.noConfusion hdec
      | some v0 =>
        have hveq : ∀ {s : String} {v : Json}, some s0 = some s → llmPayloadOf s = some v →
            v = v0 := by
          intro s v hs hp
          cases Option.some.inj hs
          have h2 := (hpay v).mp hp
          rw [h2] at hdec
          exact Option.some.inj hdec
        have hpv0 : llmPayloadOf s0 = some v0 := (hpay v0).mpr hdec
        cases v0 with
        | null =>
          simp only [hex, hdec]
          exact c4_reject_err pairs i hi (.null) rfl s0 hveq
        | bool b =>
          simp only [hex, hdec]
          exact c4_reject_err pairs i hi (.bool b) rfl s0 hveq
        | num m =>
          simp only [hex, hdec]
          exact c4_reject_err pairs i hi (.num m) rfl s0 hveq
        | str t =>
          simp only [hex, hdec]
          exact c4_reject_err pairs i hi (.str t) rfl s0 hveq
        | arr l =>
          simp only [hex, hdec]
          exact c4_reject_err pairs i hi (.arr l) rfl s0 hveq
        | obj fields =>
          cases hval : objGet fields ("validations") with
          | none =>
            refine ⟨⟨false, 0, ("Paire non trouvée dans la réponse")⟩,
              by simp [hex, hdec, hval, hi], ?_, ?_,
              fun s hs hp => rfl, fun s v hs hp hno => rfl,
              fun s v entries hs hp hvo2 hproc2 => rfl,
              fun s v entries acc2 hs hp hvo2 hproc2 hno => ⟨rfl, rfl⟩⟩
            · intro h; exact Bool.noConfusion h
            · intro h; exact Option.noConfusion h
          | some w =>
            cases w with
            | arr entries0 =>
              have hvo : validationsOf (.obj fields) = some entries0 := by
                rw [validationsOf, hval]
              cases hproc : processValidations pairs.length entries0 (fun _ => none) with
              | none =>
                refine ⟨⟨false, 0, ("Erreur LLM")⟩,
                  by simp [hex, hdec, hval, hproc, allRejected, hi], ?_, ?_,
                  fun s hs hp => rfl, fun s v hs hp hno => rfl,
                  fun s v entries hs hp hvo2 hproc2 => rfl, ?_⟩
                · intro h; exact Bool.noConfusion h
                · intro h; exact Option.noConfusion h
                · intro s v entries acc2 hs hp hvo2 hproc2 hno
                  have hv := hveq hs hp
                  subst hv
                  rw [hvo] at hvo2
                  cases Option.some.inj hvo2
                  rw [hproc] at hproc2
                  exact Option.noConfusion hproc2
              | some acc =>
                refine ⟨((acc i).getD ⟨false, 0, "Paire non trouvée dans la réponse"⟩),
                  by simp [hex, hdec, hval, hproc, hi], ?_, ?_, ?_, ?_, ?_, ?_⟩
                · intro hvalid
                  cases hacci : acc i with
                  | none =>
                    rw [hacci] at hvalid
                    exact absurd hvalid (by simp [Option.getD])
                  | some r1 =>
                    rw [hacci] at hvalid
                    simp only [Option.getD_some] at hvalid
                    rcases processValidations_valid entries0 _ acc i r1 hproc hacci hvalid
                      with ⟨r0, hr0, _⟩ | ⟨e, he, hacc2⟩
                    · exact absurd hr0 (by simp)
                    · exact ⟨s0, .obj fields, entries0, rfl, hpv0, hvo, e, he, hacc2⟩
                · intro h; exact Option.noConfusion h
                · intro s hs hp
                  cases Option.some.inj hs
                  rw [hpv0] at hp
                  exact Option.noConfusion hp
                · intro s v hs hp hno
                  have hv := hveq hs hp
                  subst hv
                  rw [hvo] at hno
                  exact Option.noConfusion hno
                · intro s v entries hs hp hvo2 hproc2
                  have hv := hveq hs hp
                  subst hv
                  rw [hvo] at hvo2
                  cases Option.some.inj hvo2
                  rw [hproc] at hproc2
                  exact Option.noConfusion hproc2
                · intro s v entries acc2 hs hp hvo2 hproc2 hno
                  have hv := hveq hs hp
                  subst hv
                  rw [hvo] at hvo2
                  cases Option.some.inj hvo2
                  rw [hproc] at hproc2
                  cases Option.some.inj hproc2
                  rw [processValidations_untouched entries0 _ acc i hproc hno]
                  exact ⟨rfl, rfl⟩
            | null =>
              simp only [hex, hdec, hval]
              exact c4_reject_err pairs i hi (.obj fields) (by rw [validationsOf, hval])
                s0 hveq
            | bool b =>
              simp only [hex, hdec, hval]
              exact c4_reject_err pairs i hi (.obj fields) (by rw [validationsOf, hval])
                s0 hveq
            | num m =>
              simp only [hex, hdec, hval]
              exact c4_reject_err pairs i hi (.obj fields) (by rw [validationsOf, hval])
                s0 hveq
            | str t =>
              simp only [hex, hdec, hval]
              exact c4_reject_err pairs i hi (.obj fields) (by rw [validationsOf, hval])
                s0 hveq
            | obj kvs =>
              simp only [hex, hdec, hval]
              exact c4_reject_err pairs i hi (.obj fields) (by rw [validationsOf, hval])
                s0 hveq

/-- C4 witness: with one pair and a reply containing no JSON at all, the
batch verdict exists and every failure clause applies (the pair is
rejected). -/
theorem llm_validate_batch_fail_closed_witness :
    ∃ r, llm_validate_batch [(("chat"), ("chien"))] (some ("pas de JSON")) 0 = some r ∧
      (r.valid = true → ∃ s v entries, some ("pas de JSON") = some s ∧
        llmPayloadOf s = some v ∧ validationsOf v = some entries ∧
        ∃ e ∈ entries, entryAccepts [(("chat"), ("chien"))].length 0 e) ∧
      (some ("pas de JSON") = none → r.valid = false) ∧
      (∀ s, some ("pas de JSON") = some s → llmPayloadOf s = none → r.valid = false) ∧
      (∀ s v, some ("pas de JSON") = some s → llmPayloadOf s = some v →
        validationsOf v = none → r.valid = false) ∧
      (∀ s v entries, some ("pas de JSON") = some s → llmPayloadOf s = some v →
        validationsOf v = some entries →
        processValidations [(("chat"), ("chien"))].length entries (fun _ => none) = none →
        r.valid = false) ∧
      (∀ s v entries acc, some ("pas de JSON") = some s → llmPayloadOf s = some v →
        validationsOf v = some entries →
        processValidations [(("chat"), ("chien"))].length entries (fun _ => none) = some acc →
        (∀ e ∈ entries, ¬ entryAssigns [(("chat"), ("chien"))].length 0 e) →
        r.valid = false ∧ r.reason = "Paire non trouvée dans la réponse") :=
  llm_validate_batch_fail_closed [(("chat"), ("chien"))] (some ("pas de JSON")) 0
    (by decide)

end Snomed

namespace Snomed

/-! ## Supporting lemmas: the hybrid filter's index bookkeeping (C2, C3) -/

theorem zipIdxFrom_snd_mem {α : Type} :
    ∀ (l : List α) (k : Nat) (p : Nat × α), p ∈ zipIdxFrom k l → p.2 ∈ l := by
  intro l
  induction l with
  | nil => intro k p h; exact absurd h (by simp [zipIdxFrom])
  | cons x xs ih =>
    intro k p h
    rw [zipIdxFrom] at h
    rcases List.mem_cons.mp h with rfl | h2
    · exact List.mem_cons_self x xs
    · exact List.mem_cons_of_mem x (ih (k + 1) p h2)

theorem zipIdxFrom_mem_iff {α : Type} :
    ∀ (l : List α) (k i : Nat) (x : α),
      ((i, x) ∈ zipIdxFrom k l) ↔ (k ≤ i ∧ l.get? (i - k) = some x) := by
  intro l
  induction l with
  | nil => intro k i x; simp [zipIdxFrom]
  | cons y ys ih =>
    intro k i x
    rw [zipIdxFrom]
    constructor
    · intro h
      rcases List.mem_cons.mp h with heq | h2
      · obtain ⟨h1, h2⟩ := Prod.mk.injEq .. ▸ heq
        refine ⟨by omega, ?_⟩
        rw [h1, Nat.sub_self]
        exact congrArg some h2.symm
      · obtain ⟨hk, hget⟩ := (ih (k + 1) i x).mp h2
        refine ⟨by omega, ?_⟩
        have : i - k = (i - (k + 1)) + 1 := by omega
        rw [this]
        simpa using hget
    · intro ⟨hk, hget⟩
      by_cases hik : i = k
      · subst hik
        rw [Nat.sub_self] at hget
        have : x = y := by simpa using hget.symm
        subst this
        exact List.mem_cons_self ..
      · refine List.mem_cons_of_mem _ ((ih (k + 1) i x).mpr ⟨by omega, ?_⟩)
        have : i - k = (i - (k + 1)) + 1 := by omega
        rw [this] at hget
        simpa using hget
    
theorem llmIndices_mem_iff (pairs : List (String × String)) (i : Nat) :
    i ∈ llmIndices pairs ↔ ∃ p, pairs.get? i = some p ∧ isAmbiguous p.1 p.2 := by
  unfold llmIndices
  constructor
  · intro h
    rcases List.mem_map.mp h with ⟨q, hq, rfl⟩
    rcases List.mem_filter.mp hq with ⟨hmem, hamb⟩
    refine ⟨q.2, ?_, of_decide_eq_true hamb⟩
    have h2 := (zipIdxFrom_mem_iff _ 0 q.1 q.2).mp (by simpa using hmem)
    simpa using h2.2
  · intro ⟨p, hget, hamb⟩
    refine List.mem_map.mpr ⟨(i, p), List.mem_filter.mpr ⟨?_, ?_⟩, rfl⟩
    · exact (zipIdxFrom_mem_iff _ 0 i p).mpr ⟨Nat.zero_le i, by simpa using hget⟩
    · exact decide_eq_true hamb

theorem llmCases_nonempty_of_ambiguous {pairs : List (String × String)} {i : Nat}
    {p : String × String} (hget : pairs.get? i = some p)
    (hamb : isAmbiguous p.1 p.2) : ¬(llmCases pairs).isEmpty = true := by
  intro hempty
  have hnil : llmCases pairs = [] := List.isEmpty_iff.mp hempty
  unfold llmCases at hnil
  have hmem : p ∈ pairs := List.get?_mem hget
  have := List.filter_eq_nil.mp hnil p hmem
  exact this (decide_eq_true hamb)

theorem listModify_get?_ne {α : Type} (g : α → α) :
    ∀ (l : List α) (j i : Nat), j ≠ i → (listModify g j l).get? i = l.get? i := by
  intro l
  induction l with
  | nil => intro j i _; cases j <;> rfl
  | cons x xs ih =>
    intro j i hne
    cases j with
    | zero =>
      cases i with
      | zero => exact absurd rfl hne
      | succ i2 => rfl
    | succ j2 =>
      cases i with
      | zero => rfl
      | succ i2 => exact ih j2 i2 (by omega)

theorem listModify_get?_eq {α : Type} (g : α → α) :
    ∀ (l : List α) (j : Nat), (listModify g j l).get? j = (l.get? j).map g := by
  intro l
  induction l with
  | nil => intro j; cases j <;> rfl
  | cons x xs ih =>
    intro j
    cases j with
    | zero => rfl
    | succ j2 => exact ih j2

/-- `updWith` overwrites everything but `method`, so consecutive updates
collapse to the last one. -/
theorem updWith_updWith (lr2 lr1 : LlmResult) (r : SemResult) :
    updWith lr2 (updWith lr1 r) = updWith lr2 r := rfl

/-- Phase 2 never touches an index outside `idxs`. -/
theorem applyLlm_get_not_mem (f : Nat → Option LlmResult) :
    ∀ (ps : List (Nat × Nat)) (m : List SemResult) (i : Nat),
      (∀ p ∈ ps, p.2 ≠ i) →
      (ps.foldl (fun acc bi_oi =>
        match f bi_oi.1 with
        | some lr => listModify (updWith lr) bi_oi.2 acc
        | none => acc) m).get? i = m.get? i := by
  intro ps
  induction ps with
  | nil => intro m i _; rfl
  | cons p ps ih =>
    intro m i hni
    rw [List.foldl_cons]
    rw [ih _ i (fun q hq => hni q (List.mem_cons_of_mem p hq))]
    split
    · exact listModify_get?_ne _ _ _ _ (hni p (List.mem_cons_self p ps))
    · rfl

/-- Any element of the phase-2 output is the phase-1 element, possibly
overwritten by one returned LLM verdict. -/
theorem applyLlm_get_shape (f : Nat → Option LlmResult) :
    ∀ (ps : List (Nat × Nat)) (m : List SemResult) (i : Nat),
      ((ps.foldl (fun acc bi_oi =>
          match f bi_oi.1 with
          | some lr => listModify (updWith lr) bi_oi.2 acc
          | none => acc) m).get? i = m.get? i) ∨
      (∃ bi lr, f bi = some lr ∧
        (ps.foldl (fun acc bi_oi =>
          match f bi_oi.1 with
          | some lr => listModify (updWith lr) bi_oi.2 acc
          | none => acc) m).get? i = (m.get? i).map (updWith lr)) := by
  intro ps
  induction ps with
  | nil => intro m i; exact Or.inl rfl
  | cons p ps ih =>
    intro m i
    rw [List.foldl_cons]
    rcases hf : f p.1 with _ | lr1
    · simpa [hf] using ih m i
    · simp only [hf]
      by_cases hpi : p.2 = i
      · subst hpi
        rcases ih (listModify (updWith lr1) p.2 m) p.2 with h | ⟨bi, lr2, hf2, h⟩
        · rw [h, listModify_get?_eq]
          exact Or.inr ⟨p.1, lr1, hf, rfl⟩
        · rw [h, listModify_get?_eq]
          refine Or.inr ⟨bi, lr2, hf2, ?_⟩
          cases m.get? p.2 <;> rfl
      · rcases ih (listModify (updWith lr1) p.2 m) i with h | ⟨bi, lr2, hf2, h⟩
        · rw [h, listModify_get?_ne _ _ _ _ hpi]
          exact Or.inl rfl
        · rw [h, listModify_get?_ne _ _ _ _ hpi]
          exact Or.inr ⟨bi, lr2, hf2, rfl⟩

/-- Every verdict in a processed table carries its tell-tale confidence:
`1.0` for an accepting verdict, `0.0` for a rejecting one. -/
theorem processValidations_inv {n : Nat} :
    ∀ (entries : List Json) (acc0 accF : Nat → Option LlmResult),
      processValidations n entries acc0 = some accF →
      (∀ j r, acc0 j = some r → r.confidence = (if r.valid then 1 else 0)) →
      ∀ j r, accF j = some r → r.confidence = (if r.valid then 1 else 0) := by
  intro entries
  induction entries with
  | nil =>
    intro acc0 accF h hinv
    cases Option.some.inj h
    exact hinv
  | cons e rest ih =>
    intro acc0 accF h hinv
    rw [processValidations] at h
    split at h
    · next acc2 h2 =>
      refine ih acc2 accF h ?_
      unfold processEntry at h2
      split at h2
      · split at h2
        · split at h2
          · split at h2
            · cases Option.some.inj h2
              intro j r hj
              simp only at hj
              split at hj
              · split at hj <;> (cases Option.some.inj hj; rfl)
              · exact hinv j r hj
            · cases Option.some.inj h2
              exact hinv
          · exact absurd h2 (by simp)
        · cases Option.some.inj h2
          exact hinv
      · exact absurd h2 (by simp)
    · exact absurd h (by simp)

/-- Every entry of an all-rejected table is the rejecting verdict. -/
theorem allRejected_mem (n : Nat) (reason : String) (i : Nat) (r : LlmResult)
    (h : allRejected n reason i = some r) : r = ⟨false, 0, reason⟩ := by
  simp only [allRejected] at h
  split at h
  · exact (Option.some.inj h).symm
  · exact absurd h (by simp)

/-- Every verdict of `llm_validate_batch` has confidence `1.0` when accepting
and `0.0` otherwise (there is no other arbitration confidence). -/
theorem llm_validate_batch_confidence (pairs : List (String × String))
    (resp? : Option String) (i : Nat) (r : LlmResult)
    (h : llm_validate_batch pairs resp? i = some r) :
    r.confidence = (if r.valid then 1 else 0) := by
  simp only [llm_validate_batch] at h
  by_cases hn : pairs.length = 0
  · rw [if_pos hn] at h
    exact absurd h (by simp)
  · rw [if_neg hn] at h
    cases resp? with
    | none =>
      obtain rfl := allRejected_mem _ _ _ _ h
      rfl
    | some s =>
      rcases hex : llmExtractJson s with _ | js
      · simp only [hex] at h
        obtain rfl := allRejected_mem _ _ _ _ h
        rfl
      · simp only [hex] at h
        rcases hdec : jsonDecode js with _ | v
        · simp only [hdec] at h
          obtain rfl := allRejected_mem _ _ _ _ h
          rfl
        · simp only [hdec] at h
          cases v with
          | obj fields =>
            rcases hval : objGet fields ("validations") with _ | w
            · simp only [hval] at h
              split at h
              · cases Option.some.inj h; rfl
              · exact absurd h (by simp)
            · simp only [hval] at h
              cases w with
              | arr entries =>
                rcases hproc : processValidations pairs.length entries (fun _ => none)
                  with _ | acc
                · simp only [hproc] at h
                  obtain rfl := allRejected_mem _ _ _ _ h
                  rfl
                · simp only [hproc] at h
                  split at h
                  · cases Option.some.inj h
                    rcases hacc : acc i with _ | r2
                    · rfl
                    · simp only [Option.getD_some]
                      exact processValidations_inv _ _ acc hproc
                        (fun j r3 hj => absurd hj (by simp)) i r2 hacc
                  · exact absurd h (by simp)
              | null =>
                obtain rfl := allRejected_mem _ _ _ _ h
                rfl
              | bool b =>
                obtain rfl := allRejected_mem _ _ _ _ h
                rfl
              | num m =>
                obtain rfl := allRejected_mem _ _ _ _ h
                rfl
              | str t =>
                obtain rfl := allRejected_mem _ _ _ _ h
                rfl
              | obj kvs =>
                obtain rfl := allRejected_mem _ _ _ _ h
                rfl
          | null =>
            obtain rfl := allRejected_mem _ _ _ _ h
            rfl
          | bool b =>
            obtain rfl := allRejected_mem _ _ _ _ h
            rfl
          | num m =>
            obtain rfl := allRejected_mem _ _ _ _ h
            rfl
          | str t =>
            obtain rfl := allRejected_mem _ _ _ _ h
            rfl
          | arr l =>
            obtain rfl := allRejected_mem _ _ _ _ h
            rfl

end Snomed

namespace Snomed

/-! ## Claim theorems: thresholds and confidence of the hybrid filter (C2, C3) -/

theorem mathResult_accept {a b : String} (hS : calculate_math_score a b ≥ 1/2) :
    mathResult a b = ⟨true, calculate_math_score a b, "mathematical", "Score math élevé"⟩ := by
  unfold mathResult
  rw [if_pos hS]

theorem mathResult_reject {a b : String} (h1 : ¬(calculate_math_score a b ≥ 1/2))
    (h2 : calculate_math_score a b ≤ 1/100) :
    mathResult a b =
      ⟨false, calculate_math_score a b, "mathematical", "Score math très bas"⟩ := by
  unfold mathResult
  rw [if_neg h1, if_pos h2]

theorem mathResult_hybrid {a b : String} (hamb : isAmbiguous a b) :
    mathResult a b = ⟨false, 0, "hybrid", "Score math ambigu"⟩ := by
  unfold mathResult
  rw [if_neg hamb.1, if_neg hamb.2]

theorem llmIndices_not_mem {pairs : List (String × String)} {i : Nat} {a b : String}
    (h : pairs.get? i = some (a, b)) (hna : ¬ isAmbiguous a b) :
    i ∉ llmIndices pairs := by
  intro hmem
  rcases (llmIndices_mem_iff pairs i).mp hmem with ⟨p, hp, hamb⟩
  rw [h] at hp
  cases Option.some.inj hp
  exact hna hamb

/-- Characterisation of one slot of `_validate_semantic_coherence_batch`:
an unambiguous pair keeps its phase-1 result and is never queued; an
ambiguous pair is queued, and its final result is its phase-1 result possibly
overwritten by a verdict actually returned by `llm_validate_batch`. -/
theorem semanticBatch_get (resp? : Option String) (pairs : List (String × String))
    (i : Nat) (a b : String) (h : pairs.get? i = some (a, b)) :
    ∃ r, (validateSemanticBatch resp? pairs).get? i = some r ∧
      (¬ isAmbiguous a b → r = mathResult a b ∧ i ∉ llmIndices pairs) ∧
      (isAmbiguous a b → i ∈ llmIndices pairs ∧ (r = mathResult a b ∨
        ∃ bi lr, llm_validate_batch (llmCases pairs) resp? bi = some lr ∧
          r = updWith lr (mathResult a b))) := by
  have hne : pairs.isEmpty = false := by
    cases pairs with
    | nil => exact absurd h (by simp)
    | cons p ps => rfl
  have hmathget : (pairs.map (fun p => mathResult p.1 p.2)).get? i =
      some (mathResult a b) := by
    rw [List.get?_map, h]
    rfl
  unfold validateSemanticBatch
  rw [hne]
  simp only [Bool.false_eq_true, if_false]
  by_cases hcases : (llmCases pairs).isEmpty = true
  · rw [if_pos hcases]
    refine ⟨mathResult a b, hmathget, fun hna => ⟨rfl, llmIndices_not_mem h hna⟩, ?_⟩
    intro hamb
    exact absurd hcases (llmCases_nonempty_of_ambiguous h hamb)
  · rw [if_neg hcases]
    unfold applyLlm
    by_cases hamb : isAmbiguous a b
    · have hmem : i ∈ llmIndices pairs :=
        (llmIndices_mem_iff pairs i).mpr ⟨(a, b), h, hamb⟩
      rcases applyLlm_get_shape (llm_validate_batch (llmCases pairs) resp?)
          (zipIdxFrom 0 (llmIndices pairs)) (pairs.map (fun p => mathResult p.1 p.2)) i
        with hsh | ⟨bi, lr, hflr, hsh⟩
      · refine ⟨mathResult a b, by rw [hsh, hmathget], fun hna => absurd hamb hna, ?_⟩
        exact fun _ => ⟨hmem, Or.inl rfl⟩
      · rw [hmathget] at hsh
        refine ⟨updWith lr (mathResult a b), by rw [hsh]; rfl,
          fun hna => absurd hamb hna, ?_⟩
        exact fun _ => ⟨hmem, Or.inr ⟨bi, lr, hflr, rfl⟩⟩
    · have hnotmem : i ∉ llmIndices pairs := llmIndices_not_mem h hamb
      have hres := applyLlm_get_not_mem (llm_validate_batch (llmCases pairs) resp?)
        (zipIdxFrom 0 (llmIndices pairs)) (pairs.map (fun p => mathResult p.1 p.2)) i
        (fun p hp hpi => hnotmem (hpi ▸ zipIdxFrom_snd_mem _ 0 p hp))
      refine ⟨mathResult a b, by rw [hres, hmathget], fun _ => ⟨rfl, hnotmem⟩,
        fun hamb2 => absurd hamb2 hamb⟩

/-- C2: the decision thresholds of the semantic coherence filter.  A pair
scoring `>= 0.5` (the boundary included) is accepted by the mathematical
tier without being queued for arbitration; a pair scoring `<= 0.01` (the
boundary included) is likewise rejected without arbitration; a pair scoring
strictly between is routed to the batched oracle arbitration. -/
theorem semantic_thresholds (resp? : Option String) (pairs : List (String × String))
    (i : Nat) (a b : String) (h : pairs.get? i = some (a, b)) :
    ∃ r, (validateSemanticBatch resp? pairs).get? i = some r ∧
      (calculate_math_score a b ≥ 1/2 →
        r.valid = true ∧ r.method = "mathematical" ∧ i ∉ llmIndices pairs) ∧
      (calculate_math_score a b ≤ 1/100 →
        r.valid = false ∧ r.method = "mathematical" ∧ i ∉ llmIndices pairs) ∧
      (1/100 < calculate_math_score a b → calculate_math_score a b < 1/2 →
        r.method = "hybrid" ∧ i ∈ llmIndices pairs) := by
  rcases semanticBatch_get resp? pairs i a b h with ⟨r, hget, hna, hamb⟩
  refine ⟨r, hget, ?_, ?_, ?_⟩
  · intro hS
    have hnamb : ¬ isAmbiguous a b := fun hx => hx.1 hS
    obtain ⟨hr, hmem⟩ := hna hnamb
    rw [hr, mathResult_accept hS]
    exact ⟨rfl, rfl, hmem⟩
  · intro hS
    have hlt : ¬(calculate_math_score a b ≥ 1/2) := by
      intro hx
      have : (1 : ℚ)/2 ≤ 1/100 := le_trans hx hS
      norm_num at this
    have hnamb : ¬ isAmbiguous a b := fun hx => hx.2 hS
    obtain ⟨hr, hmem⟩ := hna hnamb
    rw [hr, mathResult_reject hlt hS]
    exact ⟨rfl, rfl, hmem⟩
  · intro h1 h2
    have hamb2 : isAmbiguous a b := ⟨by intro hx; linarith, by intro hx; linarith⟩
    obtain ⟨hmem, hshape⟩ := hamb hamb2
    rcases hshape with hr | ⟨bi, lr, _, hr⟩
    · rw [hr, mathResult_hybrid hamb2]
      exact ⟨rfl, hmem⟩
    · rw [hr]
      refine ⟨?_, hmem⟩
      show (mathResult a b).method = "hybrid"
      rw [mathResult_hybrid hamb2]

/-- C2 witness: the boundary pair `("b", "ab")` scores exactly `0.5` and is
accepted by the mathematical tier without arbitration. -/
theorem semantic_thresholds_witness :
    calculate_math_score ("b") ("ab") = 1/2 ∧
    [(("b"), ("ab"))].get? 0 = some (("b"), ("ab")) ∧
    ∃ r, (validateSemanticBatch none [(("b"), ("ab"))]).get? 0 = some r ∧
      (calculate_math_score ("b") ("ab") ≥ 1/2 →
        r.valid = true ∧ r.method = "mathematical" ∧ 0 ∉ llmIndices [(("b"), ("ab"))]) ∧
      (calculate_math_score ("b") ("ab") ≤ 1/100 →
        r.valid = false ∧ r.method = "mathematical" ∧ 0 ∉ llmIndices [(("b"), ("ab"))]) ∧
      (1/100 < calculate_math_score ("b") ("ab") → calculate_math_score ("b") ("ab") < 1/2 →
        r.method = "hybrid" ∧ 0 ∈ llmIndices [(("b"), ("ab"))]) := by
  refine ⟨?_, rfl, semantic_thresholds none [(("b"), ("ab"))] 0 ("b") ("ab") rfl⟩
  rw [score_eval ("b") ("ab") 1 3 0 1 false true (by decide) (by decide) (by decide)
    (by decide) (by decide) (by decide)]
  norm_num

end Snomed

namespace Snomed

/-- C3 (amended): for a pair auto-decided by the lexical tier the final
confidence equals its lexical score; for a pair decided by oracle arbitration
the final confidence equals the arbitration confidence attached to it —
`1.0` when the pair is accepted and `0.0` when it is rejected — not an
average with the lexical score. -/
theorem semantic_confidence (resp? : Option String) (pairs : List (String × String))
    (i : Nat) (a b : String) (h : pairs.get? i = some (a, b)) :
    ∃ r, (validateSemanticBatch resp? pairs).get? i = some r ∧
      (¬ isAmbiguous a b → r.confidence = calculate_math_score a b) ∧
      (isAmbiguous a b → r.confidence = (if r.valid then 1 else 0)) := by
  rcases semanticBatch_get resp? pairs i a b h with ⟨r, hget, hna, hamb⟩
  refine ⟨r, hget, ?_, ?_⟩
  · intro hnamb
    obtain ⟨hr, _⟩ := hna hnamb
    by_cases hS : calculate_math_score a b ≥ 1/2
    · rw [hr, mathResult_accept hS]
    · have hle : calculate_math_score a b ≤ 1/100 := by
        by_contra hgt
        exact hnamb ⟨hS, hgt⟩
      rw [hr, mathResult_reject hS hle]
  · intro hamb2
    obtain ⟨_, hshape⟩ := hamb hamb2
    rcases hshape with hr | ⟨bi, lr, hflr, hr⟩
    · rw [hr, mathResult_hybrid hamb2]
      rfl
    · have hinv := llm_validate_batch_confidence (llmCases pairs) resp? bi lr hflr
      rw [hr]
      show lr.confidence = (if lr.valid then 1 else 0)
      exact hinv

/-- C3 counterexample: the ambiguous pair `("abcdef", "abcdeg")` has lexical
score `0.25`; when the arbitration reply accepts it, its final confidence is
the arbitration confidence `1.0`, not the average `(0.25 + 1.0)/2 = 0.625`
the claim describes. -/
theorem semantic_confidence_not_average :
    calculate_math_score ("abcdef") ("abcdeg") = 1/4 ∧
    ∃ r, (validateSemanticBatch
        (some ("\x7b\"validations\": [\x7b\"paire\": 1, \"meme_concept\": true\x7d]\x7d"))
        [(("abcdef"), ("abcdeg"))]).get? 0 = some r ∧
      r.valid = true ∧ r.confidence = 1 ∧
      ¬((1 : ℚ) = (calculate_math_score ("abcdef") ("abcdeg") + 1) / 2) := by
  have hscore : calculate_math_score ("abcdef") ("abcdeg") = 1/4 := by
    rw [score_eval ("abcdef") ("abcdeg") 5 12 0 1 false false (by decide) (by decide)
      (by decide) (by decide) (by decide) (by decide)]
    norm_num
  have hamb : isAmbiguous ("abcdef") ("abcdeg") := by
    unfold isAmbiguous
    rw [hscore]
    norm_num
  have hm : mathResult ("abcdef") ("abcdeg") = ⟨false, 0, "hybrid", "Score math ambigu"⟩ :=
    mathResult_hybrid hamb
  have hcases : llmCases [(("abcdef"), ("abcdeg"))] = [(("abcdef"), ("abcdeg"))] := by
    unfold llmCases
    rw [List.filter_cons, decide_eq_true hamb]
    rfl
  have hidx : llmIndices [(("abcdef"), ("abcdeg"))] = [0] := by
    unfold llmIndices
    show (List.filter _ [(0, (("abcdef"), ("abcdeg")))]).map Prod.fst = [0]
    rw [List.filter_cons, decide_eq_true hamb]
    rfl
  have hllm : llm_validate_batch [(("abcdef"), ("abcdeg"))]
      (some ("\x7b\"validations\": [\x7b\"paire\": 1, \"meme_concept\": true\x7d]\x7d")) 0 =
      some ⟨true, 1, "Concept identique"⟩ := rfl
  have hbatch : (validateSemanticBatch
      (some ("\x7b\"validations\": [\x7b\"paire\": 1, \"meme_concept\": true\x7d]\x7d"))
      [(("abcdef"), ("abcdeg"))]).get? 0 = some ⟨true, 1, "hybrid", "Concept identique"⟩ := by
    simp only [validateSemanticBatch]
    rw [hcases]
    simp only [List.isEmpty_cons, Bool.false_eq_true, if_false]
    unfold applyLlm
    rw [hidx]
    simp only [zipIdxFrom, List.foldl_cons, List.foldl_nil, hllm]
    rw [show List.map (fun p => mathResult p.1 p.2) [(("abcdef"), ("abcdeg"))] =
      [mathResult ("abcdef") ("abcdeg")] from rfl, hm]
    rfl
  exact ⟨hscore, ⟨true, 1, "hybrid", "Concept identique"⟩, hbatch, rfl, rfl, by
    rw [hscore]
    norm_num⟩

/-- C3 witness: the unambiguous boundary pair `("b", "ab")` (score `0.5`,
auto-accepted) keeps its lexical score as final confidence. -/
theorem semantic_confidence_witness :
    calculate_math_score ("b") ("ab") = 1/2 ∧
    ¬ isAmbiguous ("b") ("ab") ∧
    ∃ r, (validateSemanticBatch none [(("b"), ("ab"))]).get? 0 = some r ∧
      (¬ isAmbiguous ("b") ("ab") → r.confidence = calculate_math_score ("b") ("ab")) ∧
      (isAmbiguous ("b") ("ab") → r.confidence = (if r.valid then 1 else 0)) := by
  have hscore : calculate_math_score ("b") ("ab") = 1/2 := by
    rw [score_eval ("b") ("ab") 1 3 0 1 false true (by decide) (by decide) (by decide)
      (by decide) (by decide) (by decide)]
    norm_num
  refine ⟨hscore, ?_, semantic_confidence none [(("b"), ("ab"))] 0 ("b") ("ab") rfl⟩
  intro hx
  apply hx.1
  rw [hscore]

end Snomed

namespace Snomed

/-! ## Supporting lemmas: the fusion pipeline (C1, C5) -/

theorem truthyS_iff (o : Option String) :
    truthyS o = true ↔ ∃ s, o = some s ∧ s ≠ "" := by
  cases o with
  | none => simp [truthyS]
  | some s => simp [truthyS]

theorem lookup_mem {β : Type} :
    ∀ (l : List (String × β)) (k : String) (val : β),
      l.lookup k = some val → (k, val) ∈ l := by
  intro l
  induction l with
  | nil => intro k val h; exact absurd h (by simp)
  | cons p ps ih =>
    intro k val h
    rw [List.lookup] at h
    rcases hbe : (k == p.1) with _ | _
    · rw [hbe] at h
      exact List.mem_cons_of_mem p (ih k val h)
    · rw [hbe] at h
      cases Option.some.inj h
      have : k = p.1 := eq_of_beq hbe
      rw [this]
      exact List.mem_cons_self p ps


theorem validateOne_spec (v : Validator) (td : TermData) (r : VTerm)
    (h : validateOne v td = some r) : r.term = td.term ∧ recordD v r := by
  simp only [validateOne] at h
  by_cases hex : truthyS (find_exact_term_code v td.term) = true
  · rw [if_pos hex] at h
    simp only at h
    split at h
    · next hcond =>
      cases Option.some.inj h
      obtain ⟨c, hc, hcne⟩ := (truthyS_iff _).mp hex
      refine ⟨rfl, Or.inl ?_⟩
      show find_exact_term_code v td.term = some ((find_exact_term_code v td.term).getD "") ∧
        (find_exact_term_code v td.term).getD "" ≠ "" ∧ td.term = td.term
      rw [hc]
      simp [hcne]
    · exact absurd h (by simp)
  · rw [if_neg hex] at h
    by_cases hcode : (!(td.snomed_code == "UNKNOWN") && validate_code v td.snomed_code) = true
    · rw [if_pos hcode] at h
      simp only at h
      split at h
      · next hcond =>
        cases Option.some.inj h
        refine ⟨rfl, Or.inr ⟨by simpa using hex, ?_⟩⟩
        simp only
        obtain ⟨hne, htr⟩ := Bool.and_eq_true .. ▸ hcond
        obtain ⟨s, hs, hsne⟩ := (truthyS_iff _).mp htr
        rw [hs]
        rfl
      · exact absurd h (by simp)
    · rw [if_neg hcode] at h
      have hsame : find_closest_code v td.term = find_exact_term_code v td.term := rfl
      rw [hsame, if_neg hex] at h
      exact Option.noConfusion h

theorem runValidation_recordD (v : Validator) (runs : List (Option (List TermData))) :
    ∀ r ∈ runValidation v runs, recordD v r := by
  unfold runValidation
  refine foldl_inv (fun acc => ∀ r ∈ acc, recordD v r) _ runs [] (by simp) ?_
  intro acc run? _ hacc r hr
  match run? with
  | none => exact hacc r hr
  | some ts =>
    rcases List.mem_append.mp hr with h | h
    · exact hacc r h
    · rcases List.mem_filterMap.mp (List.mem_of_mem_filter h) with ⟨td, _, hv⟩
      exact (validateOne_spec v td r hv).2

theorem dedupByCode_subset :
    ∀ (l : List VTerm) (seen : List String) (r : VTerm),
      r ∈ dedupByCode l seen → r ∈ l := by
  intro l
  induction l with
  | nil => intro seen r h; exact absurd h (by simp [dedupByCode])
  | cons x xs ih =>
    intro seen r h
    rw [dedupByCode] at h
    split at h
    · exact List.mem_cons_of_mem x (ih _ r h)
    · rcases List.mem_cons.mp h with rfl | h2
      · exact List.mem_cons_self ..
      · exact List.mem_cons_of_mem _ (ih _ r h2)

theorem dedupByCode_not_seen :
    ∀ (l : List VTerm) (seen : List String) (r : VTerm),
      r ∈ dedupByCode l seen → ¬(r.snomed_code ∈ seen) := by
  intro l
  induction l with
  | nil => intro seen r h; exact absurd h (by simp [dedupByCode])
  | cons x xs ih =>
    intro seen r h
    rw [dedupByCode] at h
    split at h
    · exact ih _ r h
    · next hns =>
      rcases List.mem_cons.mp h with rfl | h2
      · intro hmem
        exact hns (List.elem_eq_true_of_mem hmem)
      · intro hmem
        exact ih _ r h2 (List.mem_cons_of_mem _ hmem)

theorem dedupByCode_pairwise :
    ∀ (l : List VTerm) (seen : List String),
      (dedupByCode l seen).Pairwise (fun r1 r2 => r1.snomed_code ≠ r2.snomed_code) := by
  intro l
  induction l with
  | nil => intro seen; simp [dedupByCode]
  | cons x xs ih =>
    intro seen
    rw [dedupByCode]
    split
    · exact ih seen
    · refine List.Pairwise.cons ?_ (ih _)
      intro r2 hr2 heq
      have := dedupByCode_not_seen xs _ r2 hr2
      exact this (heq ▸ List.mem_cons_self ..)

theorem pyNorm_eq_of_pyLower_eq {x y : String} (h : pyLower x = pyLower y) :
    pyNorm x = pyNorm y := by
  unfold pyLower at h
  unfold pyNorm
  have hdata : lowerChars x.data = lowerChars y.data := congrArg String.data h
  rw [hdata]

theorem semanticPairs_empty_iff (fused : List VTerm)
    (h : (semanticPairs fused).isEmpty = true) :
    ∀ r ∈ fused, pyLower r.term = pyLower r.snomed_term := by
  intro r hr
  unfold semanticPairs at h
  have hnil := List.isEmpty_iff.mp h
  rw [List.map_eq_nil] at hnil
  have := List.filter_eq_nil.mp hnil r hr
  simp only [Bool.not_eq_true', Bool.not_eq_false] at this
  exact eq_of_beq this

end Snomed

namespace Snomed

/-- On the skip path (all surviving pairs identical up to case), records with
equal lowercased terms have equal codes, so the code-level dedup already
separates terms.  Requires the loader invariants `storeWellFormed`. -/
theorem skip_path_pairwise (v : Validator) (hwf : storeWellFormed v)
    (fused : List VTerm) (hD : ∀ r ∈ fused, recordD v r)
    (hcodes : fused.Pairwise (fun r1 r2 => r1.snomed_code ≠ r2.snomed_code))
    (hid : ∀ r ∈ fused, pyLower r.term = pyLower r.snomed_term) :
    fused.Pairwise (fun r1 r2 => pyLower r1.term ≠ pyLower r2.term) := by
  refine List.Pairwise.imp_of_mem ?_ hcodes
  intro r1 r2 h1 h2 hne heq
  apply hne
  have hkey : find_exact_term_code v r1.term = find_exact_term_code v r2.term := by
    unfold find_exact_term_code
    rw [pyNorm_eq_of_pyLower_eq heq]
  have hexact : ∀ r ∈ fused, pyLower r.term = pyLower r.snomed_term →
      find_exact_term_code v r.term = some r.snomed_code ∧ r.snomed_code ≠ "" := by
    intro r hr hlow
    rcases hD r hr with ⟨hfe, hne2, _⟩ | ⟨htr, hfr⟩
    · exact ⟨hfe, hne2⟩
    · exfalso
      have hmem := lookup_mem _ _ _ hfr
      have hsome := hwf.2 (r.snomed_code, r.snomed_term) hmem
      rcases Option.isSome_iff_exists.mp hsome with ⟨c2, hc2⟩
      have hkey2 : pyNorm r.term = pyNorm r.snomed_term := pyNorm_eq_of_pyLower_eq hlow
      have hfe : find_exact_term_code v r.term = some c2 := by
        unfold find_exact_term_code
        rw [hkey2]
        exact hc2
      have hc2ne : c2 ≠ "" := hwf.1 _ (lookup_mem _ _ _ hc2)
      rw [hfe] at htr
      simp only [truthyS] at htr
      rw [Bool.not_eq_false'] at htr
      exact hc2ne (eq_of_beq htr)
  obtain ⟨hf1, _⟩ := hexact r1 h1 (hid r1 h1)
  obtain ⟨hf2, _⟩ := hexact r2 h2 (hid r2 h2)
  rw [hkey, hf2] at hf1
  exact (Option.some.inj hf1).symm

theorem applySemantic_mem (v : Validator) (vres : List ((String × String) × SemResult)) :
    ∀ (l : List VTerm) (e : Entity), e ∈ applySemantic v vres l →
      ∃ r ∈ l, e = mkEntityGuard v r := by
  intro l
  induction l with
  | nil => intro e h; exact absurd h (by simp [applySemantic])
  | cons r rest ih =>
    intro e h
    rw [applySemantic] at h
    split at h
    · split at h
      · rcases List.mem_cons.mp h with rfl | h2
        · exact ⟨r, List.mem_cons_self .., rfl⟩
        · rcases ih e h2 with ⟨r2, hr2, he⟩
          exact ⟨r2, List.mem_cons_of_mem _ hr2, he⟩
      · rcases ih e h with ⟨r2, hr2, he⟩
        exact ⟨r2, List.mem_cons_of_mem _ hr2, he⟩
    · rcases List.mem_cons.mp h with rfl | h2
      · exact ⟨r, List.mem_cons_self .., rfl⟩
      · rcases ih e h2 with ⟨r2, hr2, he⟩
        exact ⟨r2, List.mem_cons_of_mem _ hr2, he⟩

theorem lookup_append {β : Type} :
    ∀ (l1 l2 : List (String × β)) (k : String),
      (l1 ++ l2).lookup k =
        match l1.lookup k with
        | some v => some v
        | none => l2.lookup k := by
  intro l1 l2 k
  induction l1 with
  | nil => rfl
  | cons p ps ih =>
    rw [List.cons_append, List.lookup, List.lookup]
    cases hbe : (k == p.1) with
    | true => rfl
    | false => exact ih

theorem insertSeen_lookup :
    ∀ (seen : List (String × Entity)) (t k : String) (e : Entity),
      (insertSeen t e seen).lookup k = if k = t then some e else seen.lookup k := by
  intro seen
  induction seen with
  | nil =>
    intro t k e
    by_cases hkt : k = t
    · subst hkt
      simp [insertSeen, List.lookup]
    · have hbe : (k == t) = false := beq_eq_false_iff_ne.mpr hkt
      simp [insertSeen, List.lookup, hbe, hkt]
  | cons p ps ih =>
    intro t k e
    obtain ⟨k2, v2⟩ := p
    rw [insertSeen]
    by_cases hpt : (k2 == t) = true
    · rw [if_pos hpt]
      have hk2 : k2 = t := eq_of_beq hpt
      subst hk2
      by_cases hkt : k = k2
      · subst hkt
        simp [List.lookup]
      · have hbe : (k == k2) = false := beq_eq_false_iff_ne.mpr hkt
        simp [List.lookup, hbe, hkt]
    · rw [if_neg hpt]
      by_cases hkp : (k == k2) = true
      · have hk : k = k2 := eq_of_beq hkp
        have hkt : ¬(k = t) := by
          intro h2
          exact hpt ((beq_iff_eq ..).mpr (by rw [← hk, h2]))
        simp [List.lookup, hkp, hkt]
      · rw [Bool.not_eq_true] at hkp
        simp only [List.lookup, hkp]
        rw [ih]

end Snomed

namespace Snomed


theorem finalDedup_subset :
    ∀ (l acc : List Entity) (seen : List (String × Entity)) (x : Entity),
      x ∈ finalDedup l acc seen → x ∈ acc ∨ x ∈ l := by
  intro l
  induction l with
  | nil =>
    intro acc seen x h
    exact Or.inl h
  | cons e rest ih =>
    intro acc seen x h
    rw [finalDedup] at h
    split at h
    · rcases ih _ _ x h with h2 | h2
      · rcases List.mem_append.mp h2 with h3 | h3
        · exact Or.inl h3
        · simp only [List.mem_singleton] at h3
          exact Or.inr (h3 ▸ List.mem_cons_self e rest)
      · exact Or.inr (List.mem_cons_of_mem e h2)
    · split at h
      · rcases ih _ _ x h with h2 | h2
        · rcases List.mem_append.mp h2 with h3 | h3
          · exact Or.inl (List.mem_of_mem_erase h3)
          · simp only [List.mem_singleton] at h3
            exact Or.inr (h3 ▸ List.mem_cons_self e rest)
        · exact Or.inr (List.mem_cons_of_mem e h2)
      · rcases ih _ _ x h with h2 | h2
        · exact Or.inl h2
        · exact Or.inr (List.mem_cons_of_mem e h2)

theorem finalDedup_pairwise :
    ∀ (l acc : List Entity) (seen : List (String × Entity)), dedupInv acc seen →
      (finalDedup l acc seen).Pairwise
        (fun e1 e2 => pyLower e1.term ≠ pyLower e2.term) := by
  intro l
  induction l with
  | nil =>
    intro acc seen hinv
    exact hinv.1
  | cons e rest ih =>
    intro acc seen hinv
    rw [finalDedup]
    split
    · next hlk =>
      refine ih _ _ ⟨?_, ?_, ?_⟩
      · rw [List.pairwise_append]
        refine ⟨hinv.1, by simp, ?_⟩
        intro a ha b hb
        simp only [List.mem_singleton] at hb
        subst hb
        intro heq
        have h3 := hinv.2.2 a ha
        rw [heq] at h3
        rw [hlk] at h3
        exact Option.noConfusion h3
      · intro t2 e2 h2
        rw [lookup_append] at h2
        split at h2
        · next e3 h3 =>
          cases Option.some.inj h2
          obtain ⟨hmem, hlow⟩ := hinv.2.1 t2 e2 h3
          exact ⟨List.mem_append_left _ hmem, hlow⟩
        · rw [List.lookup] at h2
          by_cases hbe : (t2 == pyLower e.term) = true
          · rw [hbe] at h2
            cases Option.some.inj h2
            exact ⟨List.mem_append_right _ (List.mem_singleton.mpr rfl),
              (eq_of_beq hbe).symm⟩
          · rw [Bool.not_eq_true] at hbe
            rw [hbe] at h2
            exact absurd h2 (by simp)
      · intro e2 h2
        rcases List.mem_append.mp h2 with h3 | h3
        · rw [lookup_append]
          rw [hinv.2.2 e2 h3]
        · simp only [List.mem_singleton] at h3
          subst h3
          rw [lookup_append, hlk]
          simp [List.lookup]
    · next ex hlk =>
      split
      · next hcond =>
        obtain ⟨hexmem, hexlow⟩ := hinv.2.1 _ ex hlk
        have hnodup : acc.Nodup := by
          refine hinv.1.imp ?_
          intro a b hne heq
          exact hne (heq ▸ rfl)
        have herase : ∀ y ∈ acc.erase ex, pyLower y.term ≠ pyLower e.term := by
          intro y hy heq
          have hyacc := List.mem_of_mem_erase hy
          have h3 := hinv.2.2 y hyacc
          rw [heq, hlk] at h3
          cases Option.some.inj h3
          exact ((List.Nodup.mem_erase_iff hnodup).mp hy).1 rfl
        refine ih _ _ ⟨?_, ?_, ?_⟩
        · rw [List.pairwise_append]
          refine ⟨List.Pairwise.sublist (List.erase_sublist ex acc) hinv.1, by simp, ?_⟩
          intro a ha b hb
          simp only [List.mem_singleton] at hb
          subst hb
          exact herase a ha
        · intro t2 e2 h2
          rw [insertSeen_lookup] at h2
          split at h2
          · next ht2 =>
            cases Option.some.inj h2
            exact ⟨List.mem_append_right _ (List.mem_singleton.mpr rfl), ht2.symm⟩
          · next ht2 =>
            obtain ⟨hmem, hlow⟩ := hinv.2.1 t2 e2 h2
            have hne2 : e2 ≠ ex := by
              intro heq
              rw [heq] at hlow
              rw [hexlow] at hlow
              exact ht2 hlow.symm
            exact ⟨List.mem_append_left _ ((List.mem_erase_of_ne hne2).mpr hmem), hlow⟩
        · intro e2 h2
          rcases List.mem_append.mp h2 with h3 | h3
          · rw [insertSeen_lookup]
            rw [if_neg (herase e2 h3)]
            exact hinv.2.2 e2 (List.mem_of_mem_erase h3)
          · simp only [List.mem_singleton] at h3
            subst h3
            rw [insertSeen_lookup, if_pos rfl]
      · exact ih _ _ hinv

theorem phase5_perm (v : Validator) :
    ∀ (l : List Entity), (allEntities (phase5 v l)).Perm (l.map (phase5Entity v)) := by
  intro l
  induction l with
  | nil => rfl
  | cons td rest ih =>
    rw [phase5]
    simp only
    split
    · show ((phase5Entity v td :: (phase5 v rest).findings) ++ (phase5 v rest).procedures ++
        (phase5 v rest).body_structures).Perm _
      rw [List.map_cons, List.cons_append, List.cons_append]
      exact ih.cons _
    · split
      · show ((phase5 v rest).findings ++ (phase5Entity v td :: (phase5 v rest).procedures) ++
          (phase5 v rest).body_structures).Perm _
        rw [List.map_cons, List.append_assoc]
        refine List.Perm.trans (List.perm_middle ..) ?_
        refine List.Perm.cons _ ?_
        simpa [allEntities, List.append_assoc] using ih
      · show ((phase5 v rest).findings ++ (phase5 v rest).procedures ++
          (phase5Entity v td :: (phase5 v rest).body_structures)).Perm _
        rw [List.map_cons]
        refine List.Perm.trans (List.perm_middle ..) ?_
        refine List.Perm.cons _ ?_
        simpa [allEntities, List.append_assoc] using ih

/-- C5: over a store satisfying the loader invariants, no two entities of the
pipeline output share the same lowercased original term, on every execution
path — through the final same-term dedup when semantic pairs exist, and on
the skip path (all surviving pairs identical after lowercasing) because there
equal lowercased terms would force equal resolved codes, which the code-level
dedup already separates. -/
theorem pipeline_nodup_terms (v : Validator) (runs : List (Option (List TermData)))
    (resp? : Option String) (hwf : storeWellFormed v) :
    ((allEntities (pipeline v runs resp?)).map (fun e => pyLower e.term)).Nodup := by
  have hperm := phase5_perm v (finalValidated v runs resp?)
  have key : (allEntities (pipeline v runs resp?)).Pairwise
      (fun e1 e2 => pyLower e1.term ≠ pyLower e2.term) := by
    refine (hperm.pairwise_iff (fun h heq => h heq.symm)).mpr ?_
    rw [List.pairwise_map]
    have hfv : (finalValidated v runs resp?).Pairwise
        (fun e1 e2 => pyLower e1.term ≠ pyLower e2.term) := by
      simp only [finalValidated]
      split
      · next hemp =>
        rw [List.pairwise_map]
        have hD : ∀ r ∈ fusedPool v runs, recordD v r := fun r hr =>
          runValidation_recordD v runs r (dedupByCode_subset _ _ _ hr)
        have hcodes := dedupByCode_pairwise (runValidation v runs) []
        have hid := semanticPairs_empty_iff (fusedPool v runs) hemp
        exact (skip_path_pairwise v hwf (fusedPool v runs) hD hcodes hid).imp (fun h => h)
      · refine finalDedup_pairwise _ [] [] ⟨List.Pairwise.nil, ?_, ?_⟩
        · intro t e h
          exact Option.noConfusion h
        · intro e h
          exact absurd h (List.not_mem_nil e)
    exact hfv.imp (fun h => h)
  exact key.map _ (fun a b h => h)

/-- Concrete run of the term-uniqueness invariant: the miniature store is
well formed and the pipeline over the sample run yields pairwise-distinct
lowercased terms. -/
theorem pipeline_nodup_terms_witness :
    storeWellFormed sampleStore ∧
      ((allEntities (pipeline sampleStore sampleRuns none)).map
        (fun e => pyLower e.term)).Nodup :=
  ⟨by decide, pipeline_nodup_terms sampleStore sampleRuns none (by decide)⟩

/-- C1: an entity of the pipeline output whose original term exact-matches a
label of the store (a truthy hit of the lowercase-trimmed lookup) carries
that term verbatim as its official term: phase 2 records the hit's code, and
the phase-5 exact-match guard then forces `snomed_term` equal to `term`. -/
theorem pipeline_exact_match (v : Validator) (runs : List (Option (List TermData)))
    (resp? : Option String) (e : Entity) (c : String)
    (he : e ∈ allEntities (pipeline v runs resp?))
    (hex : find_exact_term_code v e.term = some c) (hc : c ≠ "") :
    e.snomed_term = e.term := by
  have hperm := phase5_perm v (finalValidated v runs resp?)
  have he2 : e ∈ (finalValidated v runs resp?).map (phase5Entity v) :=
    hperm.mem_iff.mp he
  rcases List.mem_map.mp he2 with ⟨td, htd, rfl⟩
  have hfv : ∃ r ∈ fusedPool v runs, td.term = r.term ∧ td.snomed_code = r.snomed_code := by
    revert htd
    simp only [finalValidated]
    split
    · intro htd
      rcases List.mem_map.mp htd with ⟨r, hr, rfl⟩
      exact ⟨r, hr, rfl, rfl⟩
    · intro htd
      rcases finalDedup_subset _ _ _ td htd with h | h
      · exact absurd h (List.not_mem_nil td)
      · rcases applySemantic_mem v _ _ td h with ⟨r, hr, rfl⟩
        exact ⟨r, hr, rfl, rfl⟩
  rcases hfv with ⟨r, hr, hterm, hcode⟩
  have hD : recordD v r :=
    runValidation_recordD v runs r (dedupByCode_subset _ _ _ hr)
  have hext : find_exact_term_code v r.term = some c := by
    rw [← hterm]
    exact hex
  rcases hD with ⟨hfe, _, _⟩ | ⟨htr, _⟩
  · show (if find_exact_term_code v td.term == some td.snomed_code then td.term
      else td.snomed_term) = td.term
    have hcond : find_exact_term_code v td.term = some td.snomed_code := by
      rw [hterm, hcode]
      exact hfe
    rw [hcond]
    simp
  · exfalso
    have htt := (truthyS_iff (find_exact_term_code v r.term)).mpr ⟨c, hext, hc⟩
    rw [htt] at htr
    exact Bool.noConfusion htr

/-- Concrete run of the exact-match guarantee: `fièvre` is a store label, the
pipeline emits it, and its official term is the original term verbatim. -/
theorem pipeline_exact_match_witness :
    sampleEntity ∈ allEntities (pipeline sampleStore sampleRuns none) ∧
      find_exact_term_code sampleStore sampleEntity.term = some ("386661006") ∧
        ("386661006") ≠ ("") ∧ sampleEntity.snomed_term = sampleEntity.term :=
  ⟨by decide, by decide, by decide,
    pipeline_exact_match sampleStore sampleRuns none sampleEntity ("386661006")
      (by decide) (by decide) (by decide)⟩

end Snomed
